import Mathlib

/-!
# s3g-reencap: a verification development

Shallow embedding of `src/s3g-reencap.cc` (the S3G re-encapsulation filter)
and theorems about it.

Modelling conventions.

* `unsigned char` is `Byte = Fin 256`; the bitwise operators on `Fin 256`
  reduce modulo 256, which is the truncation a store into an
  `unsigned char` performs.
* `packet` is a 35 element array.  It is a `List Byte`; every access is
  bounds checked, and an access outside the array (which C leaves
  undefined) ends the run with `Exit.overrun`.
* A pointer `packet + k` handed to a callee is the suffix `packet.drop k`.
* Standard input is a finite byte sequence.  `read(0, buf, n)` never fails
  and delivers `min n (bytes left)` bytes, so a short read happens only at
  end of stream.
* Standard output is the list of the chunks accepted by the successive
  `write(1, ..)` calls.  What a `write` returns is a parameter `wr` of the
  model (requested count to returned value); `write_all` accepts everything.
* `while (1)` is run with fuel; `main` hands the loop more fuel than it can
  use (every iteration that continues consumes an input byte).
* Statements about what a run writes are made for `write_all`, a standard
  output that takes every packet whole.
* `main` gives `packet` its 35 elements only. `main_mem` runs the same loop
  with memory behind the array, where a store past the array lands; see the
  section on memory behind the array.
-/

namespace S3g

/-- The C type `unsigned char`. -/
abbrev Byte := Fin 256

/-! ## compute_crc -/

/-- Body of the `j` loop of `compute_crc`: one shift of the register. -/
def crc_shift (crc : Byte) : Byte :=
  if crc &&& 1 ≠ 0 then (crc >>> 1) ^^^ 0x8C else crc >>> 1

/-- The loop `for (int j = 0; j < 8; j++)` of `compute_crc`, started at `j`. -/
def crc_inner : Nat → Byte → Byte
  | 0, crc => crc
  | n + 1, crc => crc_inner n (crc_shift crc)

/-- The loop `for (size_t i = 0; i < length; i++)` of `compute_crc`, with
`todo = length - i` iterations left.  `data[i]` outside the memory that
`data` points to gives `none`. -/
def crc_outer (data : List Byte) : Nat → Nat → Byte → Option Byte
  | 0, _, crc => some crc
  | todo + 1, i, crc =>
    match data[i]? with
    | none => none
    | some d => crc_outer data todo (i + 1) (crc_inner 8 (crc ^^^ d))

/-- The function `compute_crc(data, length)`. -/
def compute_crc (data : List Byte) (length : Nat) : Option Byte :=
  crc_outer data length 0 0

/-- What `compute_crc` computes, as a fold over the bytes covered, from the
register value `crc`. -/
def crc_fold (crc : Byte) (d : List Byte) : Byte :=
  d.foldl (fun c b => crc_inner 8 (c ^^^ b)) crc

/-- What `compute_crc` returns on the bytes `d`. -/
def crc_of (d : List Byte) : Byte :=
  crc_fold 0 d

/-- Inverse of `crc_shift`: the top bit of a shifted register tells whether
`0x8C` was xored in, which is when the bit shifted out was set. -/
def crc_unshift (r : Byte) : Byte :=
  if r &&& 0x80 ≠ 0 then ((r ^^^ 0x8C) <<< 1) ||| 1 else r <<< 1

/-! ## Reference CRC of the specification

Written over natural numbers, with no truncation anywhere, after the pseudo
code of the specification. -/

/-- One of the eight steps: if the low bit is set shift right by one and xor
`0x8C`, else shift right by one. -/
def ref_shift (r : Nat) : Nat :=
  if r &&& 1 = 1 then (r >>> 1) ^^^ 0x8C else r >>> 1

/-- Register update for one byte: xor the byte in, then eight steps. -/
def ref_byte (r : Nat) (b : Byte) : Nat :=
  ref_shift^[8] (r ^^^ b.val)

/-- Reference Maxim/iButton CRC-8 of a byte sequence, register started at 0. -/
def crc_reference (bytes : List Byte) : Nat :=
  bytes.foldl ref_byte 0

/-! ## The command table -/

/-- The command information stored in the table. `name = none` is the C
`NULL` name. -/
structure CommandInfo where
  id : Nat
  name : Option String
  length : Int

/-- The method `CommandInfo::is_known_command`: `name != NULL`. -/
def CommandInfo.is_known_command (c : CommandInfo) : Bool :=
  c.name.isSome

/-- Magic length: the length is to be computed from the payload. -/
def kToolActionLength : Int := -1

/-- The table `commands[256]`, indexed by the command byte.  Rows 0 to 128
and 145 to 255 of the source are all of the shape `(i, NULL, 0)`. -/
def commands (i : Nat) : CommandInfo :=
  match i with
  | 129 => ⟨129, some "QUEUE_POINT", 16⟩
  | 130 => ⟨130, some "SET_POSITION", 12⟩
  | 131 => ⟨131, some "FIND_MINS", 7⟩
  | 132 => ⟨132, some "FIND_MAXS", 7⟩
  | 133 => ⟨133, some "DELAY", 4⟩
  | 134 => ⟨134, some "CHANGE_TOOL", 1⟩
  | 135 => ⟨135, some "WAIT_FOR_TOOL_READY", 5⟩
  | 136 => ⟨136, some "TOOL_ACTION", kToolActionLength⟩
  | 137 => ⟨137, some "ENABLE_DISABLE_AXES", 1⟩
  | 138 => ⟨138, some "USER_BLOCK", 2⟩
  | 139 => ⟨139, some "QUEUE_POINT_EXT", 24⟩
  | 140 => ⟨140, some "SET_POSITION_EXT", 20⟩
  | 141 => ⟨141, some "WAIT_FOR_PLATFORM_READY", 5⟩
  | 142 => ⟨142, some "QUEUE_POINT_EXT_NEW", 25⟩
  | 143 => ⟨143, some "STORE_HOME", 1⟩
  | 144 => ⟨144, some "RECALL_HOME", 1⟩
  | n => ⟨n, none, 0⟩

/-! ## Program state and I/O -/

/-- The messages handed to `die`. -/
inductive Msg
  | reading
  | writing
  | unknown_command
  | truncated_header
  | negative_length
  | bogus_length
  | truncated_body
  | failed_write
  deriving DecidableEq, Repr

/-- The text of each message in the source. -/
def Msg.text : Msg → String
  | .reading => "reading"
  | .writing => "writing"
  | .unknown_command => "encountered unknown command"
  | .truncated_header => "truncated tool action command header"
  | .negative_length => "table contains unexpected negative length"
  | .bogus_length => "table contains bogus length"
  | .truncated_body => "truncated packet body"
  | .failed_write => "packet failed to write"

/-- The start byte of encapsulated packets. -/
def kStartByte : Byte := 0xD5

/-- Number of elements of the array `packet`: 32 (maximum payload) + 3
(framing). -/
def kPacketSize : Nat := 32 + 3

/-- The file scope variables of the program together with the two streams. -/
structure State where
  /-- bytes of standard input not yet read -/
  input : List Byte
  /-- chunks accepted by the `write` calls so far, oldest first -/
  output : List (List Byte)
  /-- the array `packet`; in a run of `main_mem`, the array followed by the
  memory behind it -/
  packet : List Byte
  bytes_read : Nat
  this_command : Byte
  cmd_length : Nat
  deriving DecidableEq, Repr

/-- How a run, or one pass through the loop body, ends. -/
inductive Exit
  /-- `break` out of the loop and return from `main`: exit status 0 -/
  | success
  /-- `die(msg)`: diagnostic and `exit(1)` -/
  | die (msg : Msg)
  /-- an access to `packet` outside its 35 elements; the C program has no
  defined behaviour from there on (in a run of `main_mem`: an access beyond
  the memory given behind the array) -/
  | overrun
  /-- the loop body ran to its end: go round again -/
  | again
  /-- the fuel of the model ran out -/
  | fuel
  deriving DecidableEq, Repr

/-- Exit status of the process, where the program defines one. -/
def Exit.status : Exit → Option Nat
  | .success => some 0
  | .die _ => some 1
  | _ => none

/-- Store the bytes `src` into `buf` from index `off` on; `none` when that
would touch an index outside `buf`. -/
def store (buf : List Byte) (off : Nat) (src : List Byte) : Option (List Byte) :=
  if off + src.length ≤ buf.length then
    some (buf.take off ++ src ++ buf.drop (off + src.length))
  else none

/-- The call `read_or_die(0, packet + off, nbyte)`: result and new state, or
`none` when the bytes delivered do not fit the array. -/
def read_or_die (s : State) (off nbyte : Nat) : Option (Nat × State) :=
  let got := s.input.take nbyte
  match store s.packet off got with
  | none => none
  | some p =>
    some (got.length,
      { s with input := s.input.drop nbyte, packet := p,
               bytes_read := s.bytes_read + got.length })

/-- A `write` that accepts every byte it is handed. -/
def write_all (nbyte : Nat) : Int := nbyte

/-- The tail of the loop body, from the `compute_crc` call on, with the
value `length` then has. -/
def emit (wr : Nat → Int) (s : State) (length : Nat) : Exit × State :=
  -- packet[3 + length] = compute_crc(packet + 3, length);
  match compute_crc (s.packet.drop 3) length with
  | none => (.overrun, s)
  | some crc =>
    match store s.packet (3 + length) [crc] with
    | none => (.overrun, s)
    | some p =>
      let s1 := { s with packet := p }
      -- n = write_or_die(1, packet, length + 4);
      -- (the bytes handed over are packet[0 .. length + 3], inside the array
      -- once the store above is)
      let n := wr (length + 4)
      if n < 0 then (.die .writing, s1)
      else
        let s2 := { s1 with
          output := s1.output ++ [(p.take (length + 4)).take n.toNat] }
        -- if (n == 0) die("packet failed to write");
        if n = 0 then (.die .failed_write, s2) else (.again, s2)

/-- One pass through the body of `while (1)`. -/
def iteration (wr : Nat → Int) (s : State) : Exit × State :=
  -- size_t n = read_or_die(0, packet + 2, 1);
  match read_or_die s 2 1 with
  | none => (.overrun, s)
  | some (n, s1) =>
    -- if (n == 0) break;
    if n = 0 then (.success, s1)
    else
      -- unsigned char id = packet[2];
      match s1.packet[2]? with
      | none => (.overrun, s1)
      | some id =>
        -- this_command = id;
        let s2 := { s1 with this_command := id }
        -- require(commands[id].is_known_command(), ..);
        if ¬ (commands id.val).is_known_command then (.die .unknown_command, s2)
        else
          -- ssize_t length = commands[id].length;
          let length : Int := (commands id.val).length
          if length = kToolActionLength then
            -- n = read_or_die(0, packet + 3, 3);
            match read_or_die s2 3 3 with
            | none => (.overrun, s2)
            | some (n, s3) =>
              -- require(n == 3, ..);
              if n ≠ 3 then (.die .truncated_header, s3)
              else
                -- length = packet[5];
                match s3.packet[5]? with
                | none => (.overrun, s3)
                | some k =>
                  -- cmd_length = length;
                  let s4 := { s3 with cmd_length := k.val }
                  -- n = read_or_die(0, packet + 6, length);
                  match read_or_die s4 6 k.val with
                  | none => (.overrun, s4)
                  | some (_, s5) =>
                    -- length += 3;
                    emit wr s5 (k.val + 3)
          else
            -- cmd_length = length;   (conversion to size_t)
            let s3 := { s2 with cmd_length := (length % 2 ^ 64).toNat }
            -- require(length >= 0, ..); require(length <= 32, ..);
            if ¬ (length ≥ 0) then (.die .negative_length, s3)
            else if ¬ (length ≤ 32) then (.die .bogus_length, s3)
            else
              -- packet[1] = length + 1;
              match store s3.packet 1 [Fin.ofNat ((length + 1) % 256).toNat] with
              | none => (.overrun, s3)
              | some p =>
                let s4 := { s3 with packet := p }
                -- n = read_or_die(0, packet + 3, length);
                match read_or_die s4 3 length.toNat with
                | none => (.overrun, s4)
                | some (n, s5) =>
                  -- require(n == length, ..);
                  if (n : Int) ≠ length then (.die .truncated_body, s5)
                  else emit wr s5 length.toNat

/-- The loop `while (1)`. -/
def run_loop (wr : Nat → Int) : Nat → State → Exit × State
  | 0, s => (.fuel, s)
  | fuel + 1, s =>
    match iteration wr s with
    | (.again, s1) => run_loop wr fuel s1
    | r => r

/-- The state in which `main` is entered: every file scope variable is zero,
nothing has been written. -/
def initial (input : List Byte) : State :=
  { input := input, output := [], packet := List.replicate kPacketSize 0,
    bytes_read := 0, this_command := 0, cmd_length := 0 }

/-- The function `main`, run on the standard input `input`. -/
def main (wr : Nat → Int) (input : List Byte) : Exit × State :=
  -- packet[0] = kStartByte;
  match store (initial input).packet 0 [kStartByte] with
  | none => (.overrun, initial input)
  | some p => run_loop wr (input.length + 1) { initial input with packet := p }

/-! ## Vocabulary for the statements -/

/-- One command of the S3G file format: the command byte `op` and every byte
that follows it (for TOOL_ACTION the three header bytes, then the bytes the
count byte announces). -/
structure Cmd where
  op : Byte
  body : List Byte
  deriving DecidableEq, Repr

/-- The bytes of a command as they stand in the input file. -/
def Cmd.bytes (c : Cmd) : List Byte :=
  c.op :: c.body

/-- A complete, known command: the table knows `op`, and `body` holds exactly
the bytes the table asks for (for TOOL_ACTION: a three byte header whose last
byte counts the bytes after it). -/
def Cmd.complete (c : Cmd) : Bool :=
  (commands c.op.val).is_known_command &&
    (if (commands c.op.val).length = kToolActionLength then
      match c.body with
      | _ :: _ :: k :: rest => decide (rest.length = k.val)
      | _ => false
    else decide ((c.body.length : Int) = (commands c.op.val).length))

/-- The framed command (two framing bytes, command byte, body, checksum)
fits the array `packet`. -/
def Cmd.fits (c : Cmd) : Bool :=
  decide (c.body.length + 4 ≤ kPacketSize)

/-- An input file: the commands one after the other. -/
def file_of : List Cmd → List Byte
  | [] => []
  | c :: cs => c.bytes ++ file_of cs

/-- A packet without its framing: the start byte, the length byte and the
trailing checksum removed. -/
def unframe (pkt : List Byte) : List Byte :=
  (pkt.drop 2).dropLast

/-- The loop invariant on the array `packet`: 35 elements, the first one the
start byte. -/
def Framed (s : State) : Prop :=
  s.packet.length = kPacketSize ∧ s.packet.head? = some kStartByte

instance (s : State) : Decidable (Framed s) := by
  unfold Framed
  exact inferInstance

/-- The value of `packet[1]` (0 for an array too short to have one). -/
def State.len_slot (s : State) : Byte :=
  s.packet.getD 1 0

/-- The value the loop body leaves in `packet[1]` after the command `c`, when
it held `p1` before. -/
def len_byte (p1 : Byte) (c : Cmd) : Byte :=
  if (commands c.op.val).length = kToolActionLength then p1
  else Fin.ofNat (c.body.length + 1)

/-- The packet the loop body writes for the complete command `c` when
`packet[1]` held `p1` before. -/
def frame (p1 : Byte) (c : Cmd) : List Byte :=
  kStartByte :: len_byte p1 c :: c.op :: (c.body ++ [crc_of c.body])

/-- The packets written for a sequence of complete commands. -/
def frames (p1 : Byte) : List Cmd → List (List Byte)
  | [] => []
  | c :: cs => frame p1 c :: frames (len_byte p1 c) cs

/-- The value of `packet[1]` after a sequence of commands. -/
def len_after (p1 : Byte) : List Cmd → Byte
  | [] => p1
  | c :: cs => len_after (len_byte p1 c) cs

/-- The state in which the loop is first entered: `packet[0]` holds the start
byte, everything else is still zero. -/
def entry (input : List Byte) : State :=
  { initial input with packet := kStartByte :: List.replicate 34 0 }

/-- Payload length of the command that starts with the given bytes: the
command byte plus the body bytes its table row gives it; for TOOL_ACTION the
command byte, the three header bytes and as many bytes as the count byte
says. -/
def payload_length : List Byte → Option Nat
  | [] => none
  | c :: rest =>
    if (commands c.val).is_known_command then
      if (commands c.val).length = kToolActionLength then
        match rest with
        | _ :: _ :: k :: _ => some (1 + 3 + k.val)
        | _ => none
      else some (1 + (commands c.val).length.toNat)
    else none

/-- The length the loop body stores in `cmd_length` for the command named by
`this_command`: its table length (converted to `size_t`), and for
TOOL_ACTION the count byte `packet[5]`. -/
def State.computed_length (s : State) : Nat :=
  if (commands s.this_command.val).length = kToolActionLength then
    (s.packet.getD 5 0).val
  else ((commands s.this_command.val).length % 2 ^ 64).toNat

/-- The length the loop body stores in `cmd_length` for a complete command:
the number of its body bytes, and for TOOL_ACTION its count byte. -/
def Cmd.stored_length (c : Cmd) : Nat :=
  if (commands c.op.val).length = kToolActionLength then (c.body.getD 2 0).val
  else c.body.length

/-- The value of `cmd_length` after a sequence of complete commands, when it
was `l0` before. -/
def last_stored (l0 : Nat) : List Cmd → Nat
  | [] => l0
  | c :: cs => last_stored c.stored_length cs

/-- A packet with its length byte set to zero when the command byte it
carries is TOOL_ACTION; any other packet unchanged. -/
def blank_tool_length (pkt : List Byte) : List Byte :=
  match pkt with
  | s :: l :: c :: rest =>
    if (commands c.val).length = kToolActionLength then s :: 0 :: c :: rest
    else s :: l :: c :: rest
  | _ => pkt

/-! ## Memory behind the array

`main` above gives the array `packet` its 35 elements and nothing more, so a
store past the array ends the run in `Exit.overrun`. The compiled program has
memory behind the array. The definitions below run the same loop with
`State.packet` standing for the memory from the address `packet` on: the 35
elements of the array followed by the bytes `behind`. A store past the array
then lands in `behind` and is read back from there; it is taken to change
nothing else that the program uses. With `behind = []` this is `main`. -/

/-- The state in which `main` is entered when the array `packet` is followed
in memory by the bytes `behind`. -/
def initial_mem (behind input : List Byte) : State :=
  { initial input with packet := List.replicate kPacketSize 0 ++ behind }

/-- The function `main` on a machine where the bytes `behind` follow the array
`packet` in memory. -/
def main_mem (wr : Nat → Int) (behind input : List Byte) : Exit × State :=
  -- packet[0] = kStartByte;
  match store (initial_mem behind input).packet 0 [kStartByte] with
  | none => (.overrun, initial_mem behind input)
  | some p =>
    run_loop wr (input.length + 1) { initial_mem behind input with packet := p }

/-- The state in which the loop is first entered by `main_mem`. -/
def entry_mem (behind input : List Byte) : State :=
  { initial input with packet := kStartByte :: (List.replicate 34 0 ++ behind) }

/-- The loop invariant on the memory from `packet` on: it holds at least the
35 elements of the array, the first one the start byte. -/
def FramedMem (s : State) : Prop :=
  kPacketSize ≤ s.packet.length ∧ s.packet.head? = some kStartByte

instance (s : State) : Decidable (FramedMem s) := by
  unfold FramedMem
  exact inferInstance

/-! ## compute_crc: lemmas -/

set_option maxRecDepth 1000000 in
theorem crc_shift_val : ∀ r : Byte, (crc_shift r).val = ref_shift r.val := by
  decide

theorem byte_xor_val (a b : Byte) : (a ^^^ b).val = a.val ^^^ b.val := by
  show (a.val ^^^ b.val) % 256 = _
  exact Nat.mod_eq_of_lt (@Nat.xor_lt_two_pow a.val b.val 8 a.isLt b.isLt)

theorem crc_inner_val (n : Nat) (r : Byte) :
    (crc_inner n r).val = ref_shift^[n] r.val := by
  induction n generalizing r with
  | zero => rfl
  | succ n ih =>
    rw [crc_inner, ih, crc_shift_val, Function.iterate_succ_apply]

theorem crc_fold_val (d : List Byte) (c : Byte) :
    (crc_fold c d).val = d.foldl ref_byte c.val := by
  induction d generalizing c with
  | nil => rfl
  | cons b d ih =>
    show (crc_fold (crc_inner 8 (c ^^^ b)) d).val = _
    rw [ih, crc_inner_val, byte_xor_val]
    rfl

theorem crc_outer_append (pre d post : List Byte) (crc : Byte) :
    crc_outer (pre ++ d ++ post) d.length pre.length crc
      = some (crc_fold crc d) := by
  induction d generalizing pre crc with
  | nil => rfl
  | cons b d ih =>
    have hget : (pre ++ b :: d ++ post)[pre.length]? = some b := by
      rw [List.append_assoc, List.getElem?_append_right (Nat.le_refl _)]
      simp
    have hre : pre ++ b :: d ++ post = (pre ++ [b]) ++ d ++ post := by simp
    have hlen : pre.length + 1 = (pre ++ [b]).length := by simp
    rw [List.length_cons, crc_outer, hget]
    show crc_outer _ _ (pre.length + 1) _ = _
    rw [hre, hlen, ih]
    rfl

theorem compute_crc_append (d post : List Byte) :
    compute_crc (d ++ post) d.length = some (crc_of d) := by
  have h := crc_outer_append [] d post 0
  simpa [compute_crc, crc_of] using h

/-! ## The array `packet` and one pass through the loop body -/

theorem store_zero (buf src : List Byte) (h : src.length ≤ buf.length) :
    store buf 0 src = some (src ++ buf.drop src.length) := by
  simp [store, h]

theorem store_cons (a : Byte) (buf : List Byte) (off : Nat) (src : List Byte) :
    store (a :: buf) (off + 1) src = (store buf off src).map (fun l => a :: l) := by
  unfold store
  have e : off + 1 + src.length = (off + src.length) + 1 := by omega
  by_cases h : off + src.length ≤ buf.length
  · simp [h, e]
  · simp [h, e]

theorem store_append_left (pre buf : List Byte) (off : Nat) (src : List Byte) :
    store (pre ++ buf) (pre.length + off) src
      = (store buf off src).map (fun l => pre ++ l) := by
  induction pre with
  | nil => simp
  | cons a pre ih =>
    have e : (a :: pre).length + off = (pre.length + off) + 1 := by
      simp only [List.length_cons]; omega
    rw [List.cons_append, e, store_cons, ih]
    cases store buf off src <;> simp

theorem store_length (buf src p : List Byte) (off : Nat)
    (h : store buf off src = some p) : p.length = buf.length := by
  unfold store at h
  split at h
  · cases h
    simp
    omega
  · cases h

theorem emit_ok (s : State) (q0 q1 q2 x : Byte) (d post : List Byte)
    (hp : s.packet = q0 :: q1 :: q2 :: (d ++ x :: post)) :
    emit write_all s d.length = (.again,
      { s with
        packet := q0 :: q1 :: q2 :: (d ++ crc_of d :: post),
        output := s.output ++ [q0 :: q1 :: q2 :: (d ++ [crc_of d])] }) := by
  have hst : store (d ++ x :: post) d.length [crc_of d]
      = some (d ++ crc_of d :: post) := by
    have h := store_append_left d (x :: post) 0 [crc_of d]
    rw [Nat.add_zero, store_zero _ _ (by simp)] at h
    rw [h]
    simp
  have hst2 : store (q0 :: q1 :: q2 :: (d ++ x :: post)) (3 + d.length) [crc_of d]
      = some (q0 :: q1 :: q2 :: (d ++ crc_of d :: post)) := by
    have e : 3 + d.length = ((d.length + 1) + 1) + 1 := by omega
    rw [e, store_cons, store_cons, store_cons, hst]
    rfl
  have htk : List.take (d.length + 4) (q0 :: q1 :: q2 :: (d ++ crc_of d :: post))
      = q0 :: q1 :: q2 :: (d ++ [crc_of d]) := by
    have e : d.length + 4 = (((d ++ [crc_of d]).length + 1) + 1) + 1 := by simp
    have e2 : d ++ crc_of d :: post = (d ++ [crc_of d]) ++ post := by simp
    rw [e, e2, List.take_succ_cons, List.take_succ_cons, List.take_succ_cons,
      List.take_left]
  have hw : write_all (d.length + 4) = ((d.length + 4 : Nat) : Int) := rfl
  have hpos : ¬ (((d.length + 4 : Nat) : Int) < 0) := by omega
  have hnz : ¬ (((d.length + 4 : Nat) : Int) = 0) := by omega
  unfold emit
  simp only [hp, List.drop_succ_cons, List.drop_zero, compute_crc_append, hst2, hw,
    hpos, hnz, if_false, Int.toNat_ofNat, htk]
  rw [List.take_of_length_le (by simp)]

theorem iteration_fixed (s : State) (q0 q1 q2 c : Byte) (t body rest : List Byte)
    (hp : s.packet = q0 :: q1 :: q2 :: t) (ht : body.length < t.length)
    (hin : s.input = c :: (body ++ rest))
    (hk : (commands c.val).is_known_command = true)
    (hl : (commands c.val).length = (body.length : Int))
    (hb : body.length ≤ 32) :
    iteration write_all s = (.again,
      { input := rest,
        output := s.output ++
          [q0 :: Fin.ofNat (body.length + 1) :: c :: (body ++ [crc_of body])],
        packet := q0 :: Fin.ofNat (body.length + 1) :: c ::
          (body ++ crc_of body :: t.drop (body.length + 1)),
        bytes_read := s.bytes_read + 1 + body.length,
        this_command := c,
        cmd_length := body.length }) := by
  have hne : (body.length : Int) ≠ kToolActionLength := by
    unfold kToolActionLength; omega
  have h1 : store t 0 body = some (body ++ t.drop body.length) :=
    store_zero _ _ (by omega)
  have h2 : ¬ (32 < body.length) := by omega
  have h3 : ((body.length : Int) % 18446744073709551616).toNat = body.length := by omega
  have h4 : (((body.length : Int) + 1) % 256).toNat = body.length + 1 := by omega
  have h5 : t.drop body.length = t[body.length] :: t.drop (body.length + 1) :=
    List.drop_eq_getElem_cons ht
  unfold iteration
  simp [read_or_die, hin, hp, store_cons, store_zero, h1, hk, hl, hne, h2, h3, h4]
  rw [h5]
  rw [emit_ok _ q0 (Fin.ofNat (body.length + 1)) c t[body.length] body
    (t.drop (body.length + 1)) rfl]

theorem emit_overrun (wr : Nat → Int) (s : State) (len : Nat)
    (h : s.packet.length ≤ 3 + len) : emit wr s len = (.overrun, s) := by
  have hst : ∀ crc : Byte, store s.packet (3 + len) [crc] = none := by
    intro crc
    unfold store
    rw [if_neg]
    simp only [List.length_singleton]
    omega
  unfold emit
  cases compute_crc (List.drop 3 s.packet) len with
  | none => rfl
  | some crc => simp only [hst]

theorem iteration_tool_gen (s : State) (q0 q1 q2 m0 m1 m2 h0 h1 k : Byte)
    (t tail : List Byte)
    (hp : s.packet = q0 :: q1 :: q2 :: m0 :: m1 :: m2 :: t)
    (hin : s.input = 136 :: h0 :: h1 :: k :: tail)
    (ht : k.val < t.length) :
    iteration write_all s = (.again,
      { input := tail.drop k.val,
        output := s.output ++
          [q0 :: q1 :: 136 :: h0 :: h1 :: k ::
            ((tail.take k.val ++ t.drop (tail.take k.val).length).take k.val ++
              [crc_of (h0 :: h1 :: k ::
                (tail.take k.val ++ t.drop (tail.take k.val).length).take k.val)])],
        packet := q0 :: q1 :: 136 :: h0 :: h1 :: k ::
            ((tail.take k.val ++ t.drop (tail.take k.val).length).take k.val ++
              crc_of (h0 :: h1 :: k ::
                (tail.take k.val ++ t.drop (tail.take k.val).length).take k.val) ::
              (tail.take k.val ++ t.drop (tail.take k.val).length).drop (k.val + 1)),
        bytes_read := s.bytes_read + 4 + (tail.take k.val).length,
        this_command := 136,
        cmd_length := k.val }) := by
  have hgl : (tail.take k.val).length ≤ t.length := by
    rw [List.length_take]; omega
  have hst0 : store t 0 (tail.take k.val)
      = some (tail.take k.val ++ t.drop (tail.take k.val).length) :=
    store_zero _ _ hgl
  generalize hg : tail.take k.val = got at *
  generalize ht1 : got ++ t.drop got.length = t1 at *
  have hl1 : t1.length = t.length := by
    rw [← ht1, List.length_append, List.length_drop]; omega
  have hsplit : t1 = t1.take k.val ++ t1[k.val] :: t1.drop (k.val + 1) := by
    have h5 : t1.drop k.val = t1[k.val] :: t1.drop (k.val + 1) :=
      List.drop_eq_getElem_cons (by omega)
    rw [← h5, List.take_append_drop]
  have hdl : (h0 :: h1 :: k :: t1.take k.val).length = k.val + 3 := by
    simp only [List.length_cons, List.length_take]; omega
  have hem := emit_ok
    { input := tail.drop k.val, output := s.output,
      packet := q0 :: q1 :: 136 :: h0 :: h1 :: k :: t1,
      bytes_read := s.bytes_read + 4 + got.length,
      this_command := 136, cmd_length := k.val }
    q0 q1 136 t1[k.val] (h0 :: h1 :: k :: t1.take k.val) (t1.drop (k.val + 1))
    (by
      show q0 :: q1 :: 136 :: h0 :: h1 :: k :: t1 = _
      simp only [List.cons_append]
      rw [← hsplit])
  rw [hdl] at hem
  unfold iteration
  have hgl2 : k.val ⊓ tail.length = got.length := by
    rw [← hg, List.length_take]
  simp [read_or_die, hin, hp, store_cons, store_zero, hg, hst0, commands,
    CommandInfo.is_known_command, hgl2]
  have e : s.bytes_read + 1 + 3 + got.length = s.bytes_read + 4 + got.length := by
    omega
  rw [e, hem]
  simp

theorem iteration_eof (wr : Nat → Int) (s : State) (q0 q1 : Byte) (t : List Byte)
    (hp : s.packet = q0 :: q1 :: t) (hin : s.input = []) :
    iteration wr s = (.success, s) := by
  obtain ⟨i, o, p, b, tc, cl⟩ := s
  simp only at hp hin
  subst hp hin
  simp [iteration, read_or_die, store_cons, store_zero]

theorem iteration_unknown (wr : Nat → Int) (s : State) (q0 q1 q2 u : Byte)
    (t rest : List Byte)
    (hp : s.packet = q0 :: q1 :: q2 :: t) (hin : s.input = u :: rest)
    (hu : (commands u.val).is_known_command = false) :
    iteration wr s = (.die .unknown_command,
      { s with input := rest, packet := q0 :: q1 :: u :: t,
               bytes_read := s.bytes_read + 1, this_command := u }) := by
  unfold iteration
  simp [read_or_die, hin, hp, store_cons, store_zero, hu]

theorem iteration_fixed_short (wr : Nat → Int) (s : State) (q0 q1 q2 c : Byte)
    (t b : List Byte) (n : Nat)
    (hp : s.packet = q0 :: q1 :: q2 :: t) (ht : b.length ≤ t.length)
    (hin : s.input = c :: b)
    (hk : (commands c.val).is_known_command = true)
    (hl : (commands c.val).length = (n : Int))
    (hn : n ≤ 32) (hb : b.length < n) :
    iteration wr s = (.die .truncated_body,
      { input := [],
        output := s.output,
        packet := q0 :: Fin.ofNat (n + 1) :: c :: (b ++ t.drop b.length),
        bytes_read := s.bytes_read + 1 + b.length,
        this_command := c,
        cmd_length := n }) := by
  have hne : (n : Int) ≠ kToolActionLength := by
    unfold kToolActionLength; omega
  have h1 : store t 0 (b.take n) = some (b ++ t.drop b.length) := by
    rw [List.take_of_length_le (by omega)]
    exact store_zero _ _ ht
  have h2 : ¬ (32 < n) := by omega
  have h3 : ((n : Int) % 18446744073709551616).toNat = n := by omega
  have h4 : (((n : Int) + 1) % 256).toNat = n + 1 := by omega
  have h5 : n ⊓ b.length = b.length := by omega
  have h6 : ¬ (b.length = n) := by omega
  have h7 : b.drop n = [] := List.drop_of_length_le (by omega)
  unfold iteration
  simp [read_or_die, hin, hp, store_cons, store_zero, h1, hk, hl, hne, h2, h3, h4,
    h5, h6, h7]

theorem iteration_header_short (wr : Nat → Int) (s : State) (q0 q1 q2 : Byte)
    (t b : List Byte)
    (hp : s.packet = q0 :: q1 :: q2 :: t) (ht : 3 ≤ t.length)
    (hin : s.input = 136 :: b) (hb : b.length < 3) :
    iteration wr s = (.die .truncated_header,
      { s with input := [],
               packet := q0 :: q1 :: 136 :: (b ++ t.drop b.length),
               bytes_read := s.bytes_read + 1 + b.length,
               this_command := 136 }) := by
  have h1 : store t 0 (b.take 3) = some (b ++ t.drop b.length) := by
    rw [List.take_of_length_le (by omega)]
    exact store_zero _ _ (by omega)
  have h5 : 3 ⊓ b.length = b.length := by omega
  have h6 : ¬ (b.length = 3) := by omega
  have h7 : b.drop 3 = [] := List.drop_of_length_le (by omega)
  unfold iteration
  simp [read_or_die, hin, hp, store_cons, store_zero, h1, commands,
    CommandInfo.is_known_command, h5, h6, h7]

theorem iteration_tool_overrun (wr : Nat → Int) (s : State)
    (q0 q1 q2 m0 m1 m2 h0 h1 k : Byte) (t tail : List Byte)
    (hp : s.packet = q0 :: q1 :: q2 :: m0 :: m1 :: m2 :: t)
    (hin : s.input = 136 :: h0 :: h1 :: k :: tail)
    (ht : t.length ≤ k.val) :
    (iteration wr s).1 = .overrun ∧ (iteration wr s).2.output = s.output := by
  unfold iteration
  simp [read_or_die, hin, hp, store_cons, store_zero, commands,
    CommandInfo.is_known_command]
  cases hst : store t 0 (List.take k.val tail) with
  | none => simp
  | some p =>
    have hpl : p.length = t.length := store_length _ _ _ _ hst
    simp only [Option.map_some', Function.comp_apply]
    rw [emit_overrun]
    · exact ⟨rfl, rfl⟩
    · simp only [List.length_cons]
      omega

/-! ## The table -/

set_option maxRecDepth 1000000 in
theorem table_fixed : ∀ c : Byte, (commands c.val).is_known_command = true →
    (commands c.val).length ≠ kToolActionLength →
    0 ≤ (commands c.val).length ∧ (commands c.val).length ≤ 25 := by
  decide

set_option maxRecDepth 1000000 in
theorem table_tool : ∀ c : Byte, (commands c.val).is_known_command = true →
    (commands c.val).length = kToolActionLength → c = 136 := by
  decide

theorem framed_split (s : State) (h : Framed s) :
    ∃ p1 q2 m0 m1 m2 t, s.packet = kStartByte :: p1 :: q2 :: m0 :: m1 :: m2 :: t
      ∧ t.length = 29 := by
  obtain ⟨hl, hh⟩ := h
  unfold kPacketSize at hl
  match hs : s.packet, hl, hh with
  | q0 :: p1 :: q2 :: m0 :: m1 :: m2 :: t, hl, hh =>
    simp only [List.head?_cons, Option.some.injEq] at hh
    subst hh
    refine ⟨p1, q2, m0, m1, m2, t, rfl, ?_⟩
    simp only [List.length_cons] at hl
    omega

theorem framed_of_cons (s : State) (p1 : Byte) (t : List Byte)
    (hp : s.packet = kStartByte :: p1 :: t) (ht : t.length = 33) : Framed s := by
  unfold Framed kPacketSize
  rw [hp]
  simp [ht]


theorem iteration_cmd (s : State) (c : Cmd) (rest : List Byte)
    (hF : Framed s) (hc : c.complete = true) (hf : c.fits = true)
    (hin : s.input = c.bytes ++ rest) :
    ∃ s1, iteration write_all s = (.again, s1) ∧ Framed s1 ∧ s1.input = rest
      ∧ s1.output = s.output ++ [frame s.len_slot c]
      ∧ s1.len_slot = len_byte s.len_slot c
      ∧ s1.bytes_read = s.bytes_read + c.bytes.length
      ∧ s1.this_command = c.op := by
  obtain ⟨p1, q2, m0, m1, m2, t, hp, ht⟩ := framed_split s hF
  obtain ⟨op, body⟩ := c
  unfold Cmd.complete at hc
  unfold Cmd.fits kPacketSize at hf
  simp only [Bool.and_eq_true, decide_eq_true_eq] at hc hf
  obtain ⟨hk, hc⟩ := hc
  simp only [Cmd.bytes, List.cons_append] at hin
  have hslot : s.len_slot = p1 := by
    unfold State.len_slot
    rw [hp]
    rfl
  by_cases hT : (commands op.val).length = kToolActionLength
  · have hop : op = 136 := table_tool op hk hT
    subst hop
    rw [if_pos hT] at hc
    match body, hc, hf, hin with
    | h0 :: h1 :: k :: b, hc, hf, hin =>
      simp only [decide_eq_true_eq] at hc
      simp only [List.length_cons] at hf
      have hgot : List.take k.val (b ++ rest) = b := by
        rw [← hc]
        exact List.take_left b rest
      have hdrop : List.drop k.val (b ++ rest) = rest := by
        rw [← hc]
        exact List.drop_left b rest
      have hbt : (b ++ List.drop b.length t).take k.val = b := by
        rw [← hc]
        exact List.take_left b _
      have h := iteration_tool_gen s kStartByte p1 q2 m0 m1 m2 h0 h1 k t (b ++ rest)
        hp (by simpa using hin) (by omega)
      rw [hgot, hdrop, hbt] at h
      refine ⟨_, h, ?_, rfl, ?_, ?_, ?_, rfl⟩
      · apply framed_of_cons _ p1 _ rfl
        simp only [List.length_cons, List.length_append, List.length_drop]
        omega
      · rw [hslot]
        simp [frame, len_byte, hT]
      · rw [hslot]
        simp [State.len_slot, len_byte, hT]
      · simp only [Cmd.bytes, List.length_cons]
        omega
  · obtain ⟨h0, h25⟩ := table_fixed op hk hT
    rw [if_neg hT] at hc
    simp only [decide_eq_true_eq] at hc
    have h := iteration_fixed s kStartByte p1 q2 op (m0 :: m1 :: m2 :: t) body rest
      hp (by simp only [List.length_cons]; omega) hin hk hc.symm (by omega)
    refine ⟨_, h, ?_, rfl, ?_, ?_, ?_, rfl⟩
    · apply framed_of_cons _ _ _ rfl
      simp only [List.length_cons, List.length_append, List.length_drop]
      omega
    · simp [frame, len_byte, hT]
    · simp [State.len_slot, len_byte, hT]
    · simp only [Cmd.bytes, List.length_cons]
      omega

theorem run_cmds (f : Nat) (rest : List Byte) (cmds : List Cmd) :
    ∀ s : State, Framed s → (∀ c ∈ cmds, c.complete = true ∧ c.fits = true) →
      s.input = file_of cmds ++ rest →
      ∃ s1, run_loop write_all (cmds.length + f) s = run_loop write_all f s1
        ∧ Framed s1 ∧ s1.input = rest
        ∧ s1.output = s.output ++ frames s.len_slot cmds
        ∧ s1.len_slot = len_after s.len_slot cmds
        ∧ s1.bytes_read = s.bytes_read + (file_of cmds).length := by
  induction cmds with
  | nil =>
    intro s hF _ hin
    exact ⟨s, by simp, hF, by simpa [file_of] using hin, by simp [frames], rfl,
      by simp [file_of]⟩
  | cons c cs ih =>
    intro s hF hall hin
    have hc := hall c (List.mem_cons_self _ _)
    simp only [file_of, List.append_assoc] at hin
    obtain ⟨s1, hit, hF1, hin1, hout1, hslot1, hbr1, _⟩ :=
      iteration_cmd s c (file_of cs ++ rest) hF hc.1 hc.2 hin
    obtain ⟨s2, hrun, hF2, hin2, hout2, hslot2, hbr2⟩ :=
      ih s1 hF1 (fun d hd => hall d (List.mem_cons_of_mem _ hd)) hin1
    refine ⟨s2, ?_, hF2, hin2, ?_, ?_, ?_⟩
    · have e : (c :: cs).length + f = (cs.length + f) + 1 := by
        simp only [List.length_cons]; omega
      rw [e, run_loop, hit]
      exact hrun
    · rw [hout2, hout1, hslot1]
      simp [frames]
    · rw [hslot2, hslot1]
      rfl
    · rw [hbr2, hbr1]
      simp only [file_of, List.length_append]
      omega

/-! ## Whole runs -/

theorem main_eq (wr : Nat → Int) (input : List Byte) :
    main wr input = run_loop wr (input.length + 1) (entry input) := rfl

theorem framed_entry (input : List Byte) : Framed (entry input) := by
  unfold Framed entry kPacketSize
  simp

theorem file_of_length (cmds : List Cmd) : cmds.length ≤ (file_of cmds).length := by
  induction cmds with
  | nil => simp
  | cons c cs ih =>
    simp only [file_of, Cmd.bytes, List.length_cons, List.length_append]
    omega

theorem main_after (cmds : List Cmd) (tl : List Byte)
    (hall : ∀ c ∈ cmds, c.complete = true ∧ c.fits = true) :
    ∃ s1 f, main write_all (file_of cmds ++ tl) = run_loop write_all (f + 1) s1
      ∧ Framed s1 ∧ s1.input = tl ∧ s1.output = frames 0 cmds
      ∧ s1.len_slot = len_after 0 cmds
      ∧ s1.bytes_read = (file_of cmds).length := by
  have hle := file_of_length cmds
  obtain ⟨s1, hrun, hF, hin, hout, hslot, hbr⟩ :=
    run_cmds ((file_of cmds).length - cmds.length + tl.length + 1) tl cmds
      (entry (file_of cmds ++ tl)) (framed_entry _) hall rfl
  refine ⟨s1, (file_of cmds).length - cmds.length + tl.length, ?_, hF, hin, ?_, ?_, ?_⟩
  · rw [main_eq, ← hrun]
    congr 1
    simp only [List.length_append]
    omega
  · simpa [entry, initial] using hout
  · simpa [entry, initial, State.len_slot] using hslot
  · simpa [entry, initial] using hbr

theorem frames_length (p1 : Byte) (cmds : List Cmd) :
    (frames p1 cmds).length = cmds.length := by
  induction cmds generalizing p1 with
  | nil => rfl
  | cons c cs ih => simp [frames, ih]

theorem unframe_frame (p1 : Byte) (c : Cmd) : unframe (frame p1 c) = c.bytes := by
  unfold unframe frame Cmd.bytes
  rw [List.drop_succ_cons, List.drop_succ_cons, List.drop_zero,
    ← List.cons_append, List.dropLast_concat]

theorem unframe_frames (p1 : Byte) (cmds : List Cmd) :
    (frames p1 cmds).map unframe = cmds.map Cmd.bytes := by
  induction cmds generalizing p1 with
  | nil => rfl
  | cons c cs ih => simp [frames, ih, unframe_frame]

theorem main_complete (cmds : List Cmd)
    (hall : ∀ c ∈ cmds, c.complete = true ∧ c.fits = true) :
    ∃ s1, main write_all (file_of cmds) = (.success, s1)
      ∧ s1.output = frames 0 cmds ∧ s1.input = []
      ∧ s1.bytes_read = (file_of cmds).length := by
  obtain ⟨s1, f, hrun, hF, hin, hout, _, hbr⟩ := main_after cmds [] hall
  rw [List.append_nil] at hrun
  obtain ⟨p1, q2, m0, m1, m2, t, hp, _⟩ := framed_split s1 hF
  refine ⟨s1, ?_, hout, hin, hbr⟩
  rw [hrun, run_loop, iteration_eof write_all s1 _ _ _ hp hin]


/-! ## Shape of every packet written -/

theorem iteration_shape (s : State) (hF : Framed s) :
    ((iteration write_all s).1 = .again → Framed (iteration write_all s).2)
    ∧ ((iteration write_all s).2.output = s.output
      ∨ ∃ pkt, (iteration write_all s).2.output = s.output ++ [pkt]
          ∧ pkt.head? = some kStartByte
          ∧ ∃ n, payload_length (pkt.drop 2) = some n ∧ pkt.length = n + 3) := by
  obtain ⟨p1, q2, m0, m1, m2, t, hp, ht⟩ := framed_split s hF
  match hin : s.input with
  | [] =>
    rw [iteration_eof write_all s _ _ _ hp hin]
    exact ⟨fun h => (by cases h), Or.inl rfl⟩
  | c :: tail =>
    by_cases hk : (commands c.val).is_known_command = true
    · by_cases hT : (commands c.val).length = kToolActionLength
      · have hop : c = 136 := table_tool c hk hT
        subst hop
        match tail, hin with
        | [], hin =>
          rw [iteration_header_short write_all s _ _ _ _ [] hp (by simp) hin (by simp)]
          exact ⟨fun h => (by cases h), Or.inl rfl⟩
        | [a], hin =>
          rw [iteration_header_short write_all s _ _ _ _ [a] hp (by simp) hin (by simp)]
          exact ⟨fun h => (by cases h), Or.inl rfl⟩
        | [a, b], hin =>
          rw [iteration_header_short write_all s _ _ _ _ [a, b] hp (by simp) hin (by simp)]
          exact ⟨fun h => (by cases h), Or.inl rfl⟩
        | h0 :: h1 :: k :: tail2, hin =>
          by_cases hfit : k.val < t.length
          · rw [iteration_tool_gen s _ _ _ _ _ _ h0 h1 k t tail2 hp hin hfit]
            refine ⟨fun _ => ?_, Or.inr ⟨_, rfl, rfl, ?_⟩⟩
            · apply framed_of_cons _ p1 _ rfl
              simp only [List.length_cons, List.length_append, List.length_drop,
                List.length_take]
              omega
            · refine ⟨1 + 3 + k.val, ?_, ?_⟩
              · simp [payload_length, commands, CommandInfo.is_known_command,
                  kToolActionLength]
              · simp only [List.length_cons, List.length_append, List.length_drop,
                  List.length_take, List.length_nil]
                omega
          · have h := iteration_tool_overrun write_all s _ _ _ _ _ _ h0 h1 k t tail2
              hp hin (by omega)
            exact ⟨fun h2 => (by rw [h.1] at h2; cases h2), Or.inl h.2⟩
      · obtain ⟨h0, h25⟩ := table_fixed c hk hT
        obtain ⟨n, hn⟩ : ∃ n : Nat, (commands c.val).length = (n : Int) :=
          ⟨(commands c.val).length.toNat, by omega⟩
        by_cases hshort : tail.length < n
        · rw [iteration_fixed_short write_all s _ _ _ c (m0 :: m1 :: m2 :: t) tail n hp
            (by simp only [List.length_cons]; omega) hin hk hn (by omega) hshort]
          exact ⟨fun h => (by cases h), Or.inl rfl⟩
        · have hlen : (tail.take n).length = n := by
            rw [List.length_take]; omega
          have hin2 : s.input = c :: (tail.take n ++ tail.drop n) := by
            rw [List.take_append_drop]; exact hin
          rw [iteration_fixed s _ _ _ c (m0 :: m1 :: m2 :: t) (tail.take n)
            (tail.drop n) hp (by simp only [List.length_cons]; omega) hin2 hk
            (by rw [hlen]; exact hn) (by omega)]
          refine ⟨fun _ => ?_, Or.inr ⟨_, rfl, rfl, ?_⟩⟩
          · apply framed_of_cons _ _ _ rfl
            simp only [List.length_cons, List.length_append, List.length_drop]
            omega
          · refine ⟨1 + n, ?_, ?_⟩
            · have hne : ¬ ((n : Int) = kToolActionLength) := by
                rw [← hn]; exact hT
              simp [payload_length, hk, hn, hne]
            · simp only [List.length_cons, List.length_append, List.length_nil]
              omega
    · rw [Bool.not_eq_true] at hk
      rw [iteration_unknown write_all s _ _ _ c (m0 :: m1 :: m2 :: t) _ hp hin hk]
      exact ⟨fun h => (by cases h), Or.inl rfl⟩

theorem run_loop_shape (fuel : Nat) :
    ∀ s : State, Framed s →
      (∀ pkt ∈ s.output, pkt.head? = some kStartByte
          ∧ ∃ n, payload_length (pkt.drop 2) = some n ∧ pkt.length = n + 3) →
      ∀ pkt ∈ (run_loop write_all fuel s).2.output, pkt.head? = some kStartByte
          ∧ ∃ n, payload_length (pkt.drop 2) = some n ∧ pkt.length = n + 3 := by
  induction fuel with
  | zero => intro s _ h; exact h
  | succ fuel ih =>
    intro s hF h
    obtain ⟨hF1, hout⟩ := iteration_shape s hF
    have hall : ∀ pkt ∈ (iteration write_all s).2.output,
        pkt.head? = some kStartByte
          ∧ ∃ n, payload_length (pkt.drop 2) = some n ∧ pkt.length = n + 3 := by
      rcases hout with he | ⟨p, he, hp⟩
      · rw [he]; exact h
      · rw [he]
        intro pkt hm
        rcases List.mem_append.mp hm with h1 | h1
        · exact h pkt h1
        · rw [List.mem_singleton.mp h1]; exact hp
    rw [run_loop]
    match hit : iteration write_all s with
    | (.again, s1) =>
      rw [hit] at hF1 hall
      exact ih s1 (hF1 rfl) hall
    | (.success, s1) => rw [hit] at hall; exact hall
    | (.die m, s1) => rw [hit] at hall; exact hall
    | (.overrun, s1) => rw [hit] at hall; exact hall
    | (.fuel, s1) => rw [hit] at hall; exact hall

/-! ## The loop terminates -/

theorem read_or_die_input (s s1 : State) (off nbyte m : Nat)
    (h : read_or_die s off nbyte = some (m, s1)) :
    s1.input = s.input.drop nbyte ∧ m = (s.input.take nbyte).length := by
  unfold read_or_die at h
  cases hst : store s.packet off (List.take nbyte s.input) with
  | none => simp [hst] at h
  | some p =>
    simp only [hst, Option.some.injEq, Prod.mk.injEq] at h
    obtain ⟨h1, h2⟩ := h
    subst h2
    exact ⟨rfl, h1.symm⟩

theorem emit_input (wr : Nat → Int) (s : State) (len : Nat) :
    (emit wr s len).2.input = s.input := by
  unfold emit
  cases hc : compute_crc (List.drop 3 s.packet) len with
  | none => rfl
  | some crc =>
    dsimp only
    cases hst : store s.packet (3 + len) [crc] with
    | none => rfl
    | some p =>
      dsimp only
      split_ifs <;> rfl

theorem iteration_again_consumes (wr : Nat → Int) (s s1 : State)
    (h : iteration wr s = (.again, s1)) : s1.input.length < s.input.length := by
  unfold iteration at h
  dsimp only at h
  split at h
  · cases h
  · rename_i n sa hr
    obtain ⟨hi, hn⟩ := read_or_die_input _ _ _ _ _ hr
    split at h
    · cases h
    · rename_i hn0
      have hlt : sa.input.length < s.input.length := by
        cases hs : s.input with
        | nil => rw [hs] at hn; simp at hn; omega
        | cons a l => rw [hi, hs]; simp
      split at h
      · cases h
      · split at h
        · cases h
        · split at h
          · split at h
            · cases h
            · rename_i n3 sb hr3
              obtain ⟨hi3, _⟩ := read_or_die_input _ _ _ _ _ hr3
              split at h
              · cases h
              · split at h
                · cases h
                · split at h
                  · cases h
                  · rename_i n6 sc hr6
                    obtain ⟨hi6, _⟩ := read_or_die_input _ _ _ _ _ hr6
                    have he := congrArg (fun r => r.2.input) h
                    simp only [emit_input] at he hi6 hi3
                    rw [← he, hi6, hi3]
                    simp only [List.length_drop]
                    omega
          · split at h
            · cases h
            · split at h
              · cases h
              · split at h
                · cases h
                · split at h
                  · cases h
                  · rename_i n5 sc hr5
                    obtain ⟨hi5, _⟩ := read_or_die_input _ _ _ _ _ hr5
                    split at h
                    · cases h
                    · have he := congrArg (fun r => r.2.input) h
                      simp only [emit_input] at he hi5
                      rw [← he, hi5]
                      simp only [List.length_drop]
                      omega

theorem emit_not_fuel (wr : Nat → Int) (s : State) (len : Nat) :
    (emit wr s len).1 ≠ .fuel := by
  unfold emit
  cases hc : compute_crc (List.drop 3 s.packet) len with
  | none => simp
  | some crc =>
    dsimp only
    cases hst : store s.packet (3 + len) [crc] with
    | none => simp
    | some p =>
      dsimp only
      split_ifs <;> simp

theorem iteration_not_fuel (wr : Nat → Int) (s s1 : State) :
    iteration wr s ≠ (.fuel, s1) := by
  intro h
  unfold iteration at h
  dsimp only at h
  repeat' split at h
  all_goals first
    | cases h
    | exact emit_not_fuel wr _ _ (congrArg Prod.fst h)

theorem run_loop_fuel (wr : Nat → Int) (fuel : Nat) :
    ∀ s : State, s.input.length < fuel → (run_loop wr fuel s).1 ≠ .fuel := by
  induction fuel with
  | zero => intro s h; omega
  | succ fuel ih =>
    intro s h
    rw [run_loop]
    match hit : iteration wr s with
    | (.again, s1) =>
      have := iteration_again_consumes wr s s1 hit
      exact ih s1 (by omega)
    | (.success, s1) => simp
    | (.die m, s1) => simp
    | (.overrun, s1) => simp
    | (.fuel, s1) =>
      exfalso
      exact iteration_not_fuel wr s s1 hit

/-- The fuel `main` hands the loop is never used up: every run ends by
`break`, by `die`, or by leaving the array. -/
theorem main_fuel_suffices (wr : Nat → Int) (input : List Byte) :
    (main wr input).1 ≠ .fuel := by
  rw [main_eq]
  exact run_loop_fuel wr (input.length + 1) (entry input) (by simp [entry, initial])

/-! ## compute_crc: the register update is a bijection -/

set_option maxRecDepth 1000000 in
theorem crc_unshift_shift : ∀ r : Byte, crc_unshift (crc_shift r) = r := by
  decide

theorem crc_shift_injective : Function.Injective crc_shift := by
  intro a b h
  rw [← crc_unshift_shift a, ← crc_unshift_shift b, h]

theorem crc_inner_injective (n : Nat) : Function.Injective (crc_inner n) := by
  induction n with
  | zero => intro a b h; exact h
  | succ n ih =>
    intro a b h
    exact crc_shift_injective (ih h)

theorem byte_xor_self (a : Byte) : a ^^^ a = 0 := by
  apply Fin.ext
  rw [byte_xor_val, Nat.xor_self]
  rfl

theorem byte_xor_left_cancel (a x y : Byte) (h : a ^^^ x = a ^^^ y) : x = y := by
  apply Fin.ext
  have h2 := congrArg Fin.val h
  rw [byte_xor_val, byte_xor_val] at h2
  exact Nat.xor_right_injective h2

theorem byte_xor_right_cancel (x y b : Byte) (h : x ^^^ b = y ^^^ b) : x = y := by
  apply Fin.ext
  have h2 := congrArg Fin.val h
  rw [byte_xor_val, byte_xor_val] at h2
  exact Nat.xor_left_injective h2

theorem crc_fold_nil (c : Byte) : crc_fold c [] = c := rfl

theorem crc_fold_cons (c b : Byte) (d : List Byte) :
    crc_fold c (b :: d) = crc_fold (crc_inner 8 (c ^^^ b)) d := rfl

theorem crc_fold_append (c : Byte) (a b : List Byte) :
    crc_fold c (a ++ b) = crc_fold (crc_fold c a) b := by
  unfold crc_fold
  rw [List.foldl_append]

theorem crc_fold_injective (d : List Byte) :
    ∀ c1 c2 : Byte, crc_fold c1 d = crc_fold c2 d → c1 = c2 := by
  induction d with
  | nil => intro c1 c2 h; exact h
  | cons b d ih =>
    intro c1 c2 h
    rw [crc_fold_cons, crc_fold_cons] at h
    exact byte_xor_right_cancel _ _ b (crc_inner_injective 8 (ih _ _ h))

theorem crc_of_one_byte (pre post : List Byte) (x y : Byte)
    (h : crc_of (pre ++ x :: post) = crc_of (pre ++ y :: post)) : x = y := by
  unfold crc_of at h
  rw [crc_fold_append, crc_fold_append, crc_fold_cons, crc_fold_cons] at h
  exact byte_xor_left_cancel _ _ _ (crc_inner_injective 8 (crc_fold_injective post _ _ h))

theorem compute_crc_whole (d : List Byte) : compute_crc d d.length = some (crc_of d) := by
  have h := compute_crc_append d []
  rwa [List.append_nil] at h

theorem split_at_index (d : List Byte) (i : Nat) (hi : i < d.length) :
    d = d.take i ++ d[i] :: d.drop (i + 1) := by
  rw [← List.drop_eq_getElem_cons hi, List.take_append_drop]

/-! ## The loop body for any behaviour of `write` -/

theorem store_getElem_lt (buf src p : List Byte) (off i : Nat)
    (h : store buf off src = some p) (hi : i < off) : p[i]? = buf[i]? := by
  unfold store at h
  split at h
  · cases h
    rw [List.append_assoc, List.getElem?_append_left (by rw [List.length_take]; omega),
      List.getElem?_take_of_lt hi]
  · cases h

theorem store_head (buf src p : List Byte) (off : Nat)
    (h : store buf (off + 1) src = some p) : p.head? = buf.head? := by
  have h0 := store_getElem_lt buf src p (off + 1) 0 h (by omega)
  rw [List.head?_eq_getElem?, List.head?_eq_getElem?]
  exact h0

theorem compute_crc_some (data : List Byte) (len : Nat) (h : len ≤ data.length) :
    compute_crc data len = some (crc_of (data.take len)) := by
  have h1 := compute_crc_append (data.take len) (data.drop len)
  rw [List.take_append_drop, List.length_take, Nat.min_eq_left h] at h1
  exact h1

theorem emit_some (wr : Nat → Int) (s : State) (len : Nat) (crc : Byte)
    (p : List Byte) (hc : compute_crc (s.packet.drop 3) len = some crc)
    (hst : store s.packet (3 + len) [crc] = some p) :
    emit wr s len =
      if wr (len + 4) < 0 then (.die .writing, { s with packet := p })
      else if wr (len + 4) = 0 then
        (.die .failed_write,
          { s with packet := p,
                   output := s.output ++ [(p.take (len + 4)).take (wr (len + 4)).toNat] })
      else
        (.again,
          { s with packet := p,
                   output := s.output ++ [(p.take (len + 4)).take (wr (len + 4)).toNat] }) := by
  unfold emit
  simp only [hc, hst]

theorem emit_cases (wr : Nat → Int) (s : State) (len : Nat) :
    emit wr s len = (.overrun, s)
    ∨ ∃ crc p, compute_crc (s.packet.drop 3) len = some crc
        ∧ store s.packet (3 + len) [crc] = some p
        ∧ emit wr s len =
          if wr (len + 4) < 0 then (.die .writing, { s with packet := p })
          else if wr (len + 4) = 0 then
            (.die .failed_write,
              { s with packet := p,
                       output := s.output ++ [(p.take (len + 4)).take (wr (len + 4)).toNat] })
          else
            (.again,
              { s with packet := p,
                       output := s.output ++ [(p.take (len + 4)).take (wr (len + 4)).toNat] }) := by
  cases hc : compute_crc (s.packet.drop 3) len with
  | none =>
    left
    unfold emit
    simp only [hc]
  | some crc =>
    cases hst : store s.packet (3 + len) [crc] with
    | none =>
      left
      unfold emit
      simp only [hc, hst]
    | some p => exact Or.inr ⟨crc, p, rfl, hst, emit_some wr s len crc p hc hst⟩

theorem emit_fitting (wr : Nat → Int) (s : State) (len : Nat)
    (h : 3 + len < s.packet.length) :
    ∃ p, store s.packet (3 + len) [crc_of ((s.packet.drop 3).take len)] = some p
      ∧ emit wr s len =
        if wr (len + 4) < 0 then (.die .writing, { s with packet := p })
        else if wr (len + 4) = 0 then
          (.die .failed_write,
            { s with packet := p,
                     output := s.output ++ [(p.take (len + 4)).take (wr (len + 4)).toNat] })
        else
          (.again,
            { s with packet := p,
                     output := s.output ++ [(p.take (len + 4)).take (wr (len + 4)).toNat] }) := by
  have hc := compute_crc_some (s.packet.drop 3) len (by rw [List.length_drop]; omega)
  have hst : ∃ p, store s.packet (3 + len) [crc_of ((s.packet.drop 3).take len)]
      = some p := by
    unfold store
    rw [if_pos (by simp only [List.length_singleton]; omega)]
    exact ⟨_, rfl⟩
  obtain ⟨p, hp⟩ := hst
  exact ⟨p, hp, emit_some wr s len _ p hc hp⟩

theorem emit_diag (wr : Nat → Int) (s : State) (len : Nat) :
    (emit wr s len).2.cmd_length = s.cmd_length
      ∧ (emit wr s len).2.this_command = s.this_command
      ∧ (emit wr s len).2.bytes_read = s.bytes_read
      ∧ (emit wr s len).2.packet.length = s.packet.length
      ∧ (emit wr s len).2.packet.head? = s.packet.head?
      ∧ (3 ≤ len → (emit wr s len).2.packet[5]? = s.packet[5]?) := by
  rcases emit_cases wr s len with h | ⟨crc, p, _, hst, h⟩
  · rw [h]
    exact ⟨rfl, rfl, rfl, rfl, rfl, fun _ => rfl⟩
  · have hl := store_length _ _ _ _ hst
    have e : 3 + len = (2 + len) + 1 := by omega
    have hh := store_head s.packet [crc] p (2 + len) (by rw [← e]; exact hst)
    have h5 : 3 ≤ len → p[5]? = s.packet[5]? := fun h3 =>
      store_getElem_lt _ _ _ _ 5 hst (by omega)
    rw [h]
    split_ifs <;> exact ⟨rfl, rfl, rfl, hl, hh, h5⟩

theorem emit_exit (wr : Nat → Int) (s : State) (len : Nat) :
    (emit wr s len).1 = .overrun ∨ (emit wr s len).1 = .die .writing
      ∨ (emit wr s len).1 = .die .failed_write ∨ (emit wr s len).1 = .again := by
  rcases emit_cases wr s len with h | ⟨crc, p, _, _, h⟩
  · rw [h]; exact Or.inl rfl
  · rw [h]
    split_ifs
    · exact Or.inr (Or.inl rfl)
    · exact Or.inr (Or.inr (Or.inl rfl))
    · exact Or.inr (Or.inr (Or.inr rfl))

theorem emit_no_overrun (wr : Nat → Int) (s : State) (len : Nat)
    (h : 3 + len < s.packet.length) : (emit wr s len).1 ≠ .overrun := by
  obtain ⟨p, _, he⟩ := emit_fitting wr s len h
  rw [he]
  split_ifs <;> simp

theorem iteration_fixed_emit (wr : Nat → Int) (s : State) (q0 q1 q2 c : Byte)
    (t body rest : List Byte)
    (hp : s.packet = q0 :: q1 :: q2 :: t) (ht : body.length ≤ t.length)
    (hin : s.input = c :: (body ++ rest))
    (hk : (commands c.val).is_known_command = true)
    (hl : (commands c.val).length = (body.length : Int))
    (hb : body.length ≤ 32) :
    iteration wr s = emit wr
      { input := rest,
        output := s.output,
        packet := q0 :: Fin.ofNat (body.length + 1) :: c :: (body ++ t.drop body.length),
        bytes_read := s.bytes_read + 1 + body.length,
        this_command := c,
        cmd_length := body.length } body.length := by
  have hne : (body.length : Int) ≠ kToolActionLength := by
    unfold kToolActionLength; omega
  have h1 : store t 0 body = some (body ++ t.drop body.length) :=
    store_zero _ _ ht
  have h2 : ¬ (32 < body.length) := by omega
  have h3 : ((body.length : Int) % 18446744073709551616).toNat = body.length := by omega
  have h4 : (((body.length : Int) + 1) % 256).toNat = body.length + 1 := by omega
  unfold iteration
  simp [read_or_die, hin, hp, store_cons, store_zero, h1, hk, hl, hne, h2, h3, h4]

theorem iteration_tool_emit (wr : Nat → Int) (s : State)
    (q0 q1 q2 m0 m1 m2 h0 h1 k : Byte) (t tail : List Byte)
    (hp : s.packet = q0 :: q1 :: q2 :: m0 :: m1 :: m2 :: t)
    (hin : s.input = 136 :: h0 :: h1 :: k :: tail)
    (ht : (tail.take k.val).length ≤ t.length) :
    iteration wr s = emit wr
      { input := tail.drop k.val,
        output := s.output,
        packet := q0 :: q1 :: 136 :: h0 :: h1 :: k ::
          (tail.take k.val ++ t.drop (tail.take k.val).length),
        bytes_read := s.bytes_read + 4 + (tail.take k.val).length,
        this_command := 136,
        cmd_length := k.val } (k.val + 3) := by
  have hgl2 : k.val ⊓ tail.length = (tail.take k.val).length := by
    rw [List.length_take]
  generalize hg : tail.take k.val = got at *
  have hst0 : store t 0 got = some (got ++ t.drop got.length) :=
    store_zero _ _ ht
  unfold iteration
  simp [read_or_die, hin, hp, store_cons, store_zero, hg, hst0, commands,
    CommandInfo.is_known_command, hgl2]

theorem iteration_tool_read_overrun (wr : Nat → Int) (s : State)
    (q0 q1 q2 m0 m1 m2 h0 h1 k : Byte) (t tail : List Byte)
    (hp : s.packet = q0 :: q1 :: q2 :: m0 :: m1 :: m2 :: t)
    (hin : s.input = 136 :: h0 :: h1 :: k :: tail)
    (ht : t.length < (tail.take k.val).length) :
    iteration wr s = (.overrun,
      { s with
        input := tail,
        packet := q0 :: q1 :: 136 :: h0 :: h1 :: k :: t,
        bytes_read := s.bytes_read + 4,
        this_command := 136,
        cmd_length := k.val }) := by
  generalize hg : tail.take k.val = got at *
  have hst0 : store t 0 got = none := by
    unfold store
    rw [if_neg (by omega)]
  unfold iteration
  simp [read_or_die, hin, hp, store_cons, store_zero, hg, hst0, commands,
    CommandInfo.is_known_command]

theorem computed_length_fixed (s : State) (n : Nat)
    (hl : (commands s.this_command.val).length = (n : Int)) (hb : n ≤ 32) :
    s.computed_length = n := by
  unfold State.computed_length
  have hne : ¬ ((n : Int) = kToolActionLength) := by
    unfold kToolActionLength; omega
  rw [hl, if_neg hne]
  omega

theorem computed_length_tool (s : State) (k : Byte)
    (hc : s.this_command = 136) (h5 : s.packet[5]? = some k) :
    s.computed_length = k.val := by
  unfold State.computed_length
  rw [hc, if_pos (by decide), List.getD_eq_getElem?_getD, h5]
  rfl

/-- What one pass through the loop body guarantees, entered with the loop
invariant, whatever `write` returns. -/
theorem iteration_props (wr : Nat → Int) (s : State) (hF : Framed s) :
    Framed (iteration wr s).2
    ∧ (iteration wr s).1 ≠ .die .negative_length
    ∧ (iteration wr s).1 ≠ .die .bogus_length
    ∧ (iteration wr s).1 ≠ .die .reading
    ∧ ((iteration wr s).1 = .overrun → (iteration wr s).2.this_command = 136)
    ∧ ((iteration wr s).1 = .success ∨ (iteration wr s).1 = .die .unknown_command
        ∨ (iteration wr s).1 = .die .truncated_header →
        (iteration wr s).2.cmd_length = s.cmd_length)
    ∧ ((iteration wr s).1 ≠ .success → (iteration wr s).1 ≠ .die .unknown_command →
        (iteration wr s).1 ≠ .die .truncated_header →
        (iteration wr s).2.cmd_length = (iteration wr s).2.computed_length) := by
  obtain ⟨p1, q2, m0, m1, m2, t, hp, ht⟩ := framed_split s hF
  match hin : s.input with
  | [] =>
    rw [iteration_eof wr s _ _ _ hp hin]
    simp [hF]
  | c :: tail =>
    by_cases hk : (commands c.val).is_known_command = true
    · by_cases hT : (commands c.val).length = kToolActionLength
      · have hop : c = 136 := table_tool c hk hT
        subst hop
        have hshort : ∀ b : List Byte, s.input = 136 :: b → b.length < 3 →
            Framed (iteration wr s).2
            ∧ (iteration wr s).1 ≠ .die .negative_length
            ∧ (iteration wr s).1 ≠ .die .bogus_length
            ∧ (iteration wr s).1 ≠ .die .reading
            ∧ ((iteration wr s).1 = .overrun → (iteration wr s).2.this_command = 136)
            ∧ ((iteration wr s).1 = .success ∨ (iteration wr s).1 = .die .unknown_command
                ∨ (iteration wr s).1 = .die .truncated_header →
                (iteration wr s).2.cmd_length = s.cmd_length)
            ∧ ((iteration wr s).1 ≠ .success →
                (iteration wr s).1 ≠ .die .unknown_command →
                (iteration wr s).1 ≠ .die .truncated_header →
                (iteration wr s).2.cmd_length = (iteration wr s).2.computed_length) := by
          intro b hb hlen
          rw [iteration_header_short wr s _ _ _ (m0 :: m1 :: m2 :: t) b hp
            (by simp only [List.length_cons]; omega) hb hlen]
          refine ⟨?_, by simp, by simp, by simp, by simp, fun _ => rfl, by simp⟩
          apply framed_of_cons _ p1 _ rfl
          simp only [List.length_cons, List.length_append, List.length_drop]
          omega
        match tail, hin with
        | [], hin => exact hshort [] hin (by simp)
        | [a], hin => exact hshort [a] hin (by simp)
        | [a, b], hin => exact hshort [a, b] hin (by simp)
        | h0 :: h1 :: k :: tail2, hin =>
          by_cases hfit : (tail2.take k.val).length ≤ t.length
          · rw [iteration_tool_emit wr s _ _ _ _ _ _ h0 h1 k t tail2 hp hin hfit]
            obtain ⟨d1, d2, _, d4, d5, d6⟩ := emit_diag wr
              { input := tail2.drop k.val, output := s.output,
                packet := kStartByte :: p1 :: 136 :: h0 :: h1 :: k ::
                  (tail2.take k.val ++ t.drop (tail2.take k.val).length),
                bytes_read := s.bytes_read + 4 + (tail2.take k.val).length,
                this_command := 136, cmd_length := k.val } (k.val + 3)
            have hex := emit_exit wr
              { input := tail2.drop k.val, output := s.output,
                packet := kStartByte :: p1 :: 136 :: h0 :: h1 :: k ::
                  (tail2.take k.val ++ t.drop (tail2.take k.val).length),
                bytes_read := s.bytes_read + 4 + (tail2.take k.val).length,
                this_command := 136, cmd_length := k.val } (k.val + 3)
            refine ⟨?_, ?_, ?_, ?_, fun _ => d2, ?_, fun _ _ _ => ?_⟩
            · refine ⟨?_, ?_⟩
              · rw [d4]
                unfold kPacketSize
                simp only [List.length_cons, List.length_append, List.length_drop]
                omega
              · rw [d5]; rfl
            · rcases hex with h | h | h | h <;> rw [h] <;> simp
            · rcases hex with h | h | h | h <;> rw [h] <;> simp
            · rcases hex with h | h | h | h <;> rw [h] <;> simp
            · intro h
              rcases hex with h2 | h2 | h2 | h2 <;> rw [h2] at h <;> simp at h
            · rw [d1]
              exact (computed_length_tool _ k d2 (by rw [d6 (by omega)]; simp)).symm
          · rw [iteration_tool_read_overrun wr s _ _ _ _ _ _ h0 h1 k t tail2 hp hin
              (by omega)]
            refine ⟨?_, by simp, by simp, by simp, fun _ => rfl, by simp, fun _ _ _ => ?_⟩
            · apply framed_of_cons _ p1 _ rfl
              simp only [List.length_cons]
              omega
            · exact (computed_length_tool _ k rfl (by simp)).symm
      · obtain ⟨h0, h25⟩ := table_fixed c hk hT
        obtain ⟨n, hn⟩ : ∃ n : Nat, (commands c.val).length = (n : Int) :=
          ⟨(commands c.val).length.toNat, by omega⟩
        by_cases hshort : tail.length < n
        · rw [iteration_fixed_short wr s _ _ _ c (m0 :: m1 :: m2 :: t) tail n hp
            (by simp only [List.length_cons]; omega) hin hk hn (by omega) hshort]
          refine ⟨?_, by simp, by simp, by simp, by simp, by simp, fun _ _ _ => ?_⟩
          · apply framed_of_cons _ _ _ rfl
            simp only [List.length_cons, List.length_append, List.length_drop]
            omega
          · exact (computed_length_fixed _ n hn (by omega)).symm
        · have hlen : (tail.take n).length = n := by
            rw [List.length_take]; omega
          have hin2 : s.input = c :: (tail.take n ++ tail.drop n) := by
            rw [List.take_append_drop]; exact hin
          rw [iteration_fixed_emit wr s _ _ _ c (m0 :: m1 :: m2 :: t) (tail.take n)
            (tail.drop n) hp (by simp only [List.length_cons]; omega) hin2 hk
            (by rw [hlen]; exact hn) (by omega)]
          rw [hlen]
          obtain ⟨d1, d2, _, d4, d5, _⟩ := emit_diag wr
            { input := tail.drop n, output := s.output,
              packet := kStartByte :: Fin.ofNat (n + 1) :: c ::
                (tail.take n ++ (m0 :: m1 :: m2 :: t).drop n),
              bytes_read := s.bytes_read + 1 + n,
              this_command := c, cmd_length := n } n
          have hex := emit_exit wr
            { input := tail.drop n, output := s.output,
              packet := kStartByte :: Fin.ofNat (n + 1) :: c ::
                (tail.take n ++ (m0 :: m1 :: m2 :: t).drop n),
              bytes_read := s.bytes_read + 1 + n,
              this_command := c, cmd_length := n } n
          have hno := emit_no_overrun wr
            { input := tail.drop n, output := s.output,
              packet := kStartByte :: Fin.ofNat (n + 1) :: c ::
                (tail.take n ++ (m0 :: m1 :: m2 :: t).drop n),
              bytes_read := s.bytes_read + 1 + n,
              this_command := c, cmd_length := n } n
            (by
              simp only [List.length_cons, List.length_append, List.length_drop, hlen]
              omega)
          refine ⟨?_, ?_, ?_, ?_, fun h => absurd h hno, ?_, fun _ _ _ => ?_⟩
          · refine ⟨?_, ?_⟩
            · rw [d4]
              unfold kPacketSize
              simp only [List.length_cons, List.length_append, List.length_drop, hlen]
              omega
            · rw [d5]; rfl
          · rcases hex with h | h | h | h <;> rw [h] <;> simp
          · rcases hex with h | h | h | h <;> rw [h] <;> simp
          · rcases hex with h | h | h | h <;> rw [h] <;> simp
          · intro h
            rcases hex with h2 | h2 | h2 | h2 <;> rw [h2] at h <;> simp at h
          · rw [d1]
            exact (computed_length_fixed _ n (by rw [d2]; exact hn) (by omega)).symm
    · rw [Bool.not_eq_true] at hk
      rw [iteration_unknown wr s _ _ _ c (m0 :: m1 :: m2 :: t) _ hp hin hk]
      refine ⟨?_, by simp, by simp, by simp, by simp, fun _ => rfl, by simp⟩
      apply framed_of_cons _ p1 _ rfl
      simp only [List.length_cons]
      omega

/-! ## Whole runs for any behaviour of `write`, and the diagnostics -/

theorem run_loop_props (wr : Nat → Int) (fuel : Nat) :
    ∀ s : State, Framed s →
      Framed (run_loop wr fuel s).2
      ∧ (run_loop wr fuel s).1 ≠ .die .negative_length
      ∧ (run_loop wr fuel s).1 ≠ .die .bogus_length
      ∧ (run_loop wr fuel s).1 ≠ .die .reading
      ∧ ((run_loop wr fuel s).1 = .overrun →
          (run_loop wr fuel s).2.this_command = 136) := by
  induction fuel with
  | zero =>
    intro s hF
    exact ⟨hF, by simp [run_loop], by simp [run_loop], by simp [run_loop],
      by simp [run_loop]⟩
  | succ fuel ih =>
    intro s hF
    obtain ⟨p1, p2, p3, p4, p5, _, _⟩ := iteration_props wr s hF
    rw [run_loop]
    match hit : iteration wr s with
    | (.again, s1) =>
      rw [hit] at p1
      exact ih s1 p1
    | (.success, s1) => rw [hit] at p1; exact ⟨p1, by simp, by simp, by simp, by simp⟩
    | (.die m, s1) =>
      rw [hit] at p1 p2 p3 p4
      exact ⟨p1, p2, p3, p4, by simp⟩
    | (.overrun, s1) =>
      rw [hit] at p1 p5
      exact ⟨p1, by simp, by simp, by simp, fun _ => p5 rfl⟩
    | (.fuel, s1) => rw [hit] at p1; exact ⟨p1, by simp, by simp, by simp, by simp⟩

theorem iteration_cmd_len (s : State) (c : Cmd) (rest : List Byte)
    (hF : Framed s) (hc : c.complete = true) (hf : c.fits = true)
    (hin : s.input = c.bytes ++ rest) :
    (iteration write_all s).2.cmd_length = c.stored_length := by
  obtain ⟨p1, q2, m0, m1, m2, t, hp, ht⟩ := framed_split s hF
  obtain ⟨op, body⟩ := c
  unfold Cmd.complete at hc
  unfold Cmd.fits kPacketSize at hf
  simp only [Bool.and_eq_true, decide_eq_true_eq] at hc hf
  obtain ⟨hk, hc⟩ := hc
  simp only [Cmd.bytes, List.cons_append] at hin
  unfold Cmd.stored_length
  by_cases hT : (commands op.val).length = kToolActionLength
  · have hop : op = 136 := table_tool op hk hT
    subst hop
    rw [if_pos hT] at hc
    simp only [if_pos hT]
    match body, hc, hf, hin with
    | h0 :: h1 :: k :: b, hc, hf, hin =>
      simp only [decide_eq_true_eq] at hc
      simp only [List.length_cons] at hf
      rw [iteration_tool_emit write_all s _ _ _ _ _ _ h0 h1 k t (b ++ rest) hp
        (by simpa using hin) (by rw [List.length_take]; omega), (emit_diag _ _ _).1]
      rfl
  · obtain ⟨h0, h25⟩ := table_fixed op hk hT
    rw [if_neg hT] at hc
    simp only [decide_eq_true_eq] at hc
    simp only [if_neg hT]
    rw [iteration_fixed_emit write_all s _ _ _ op (m0 :: m1 :: m2 :: t) body rest
      hp (by simp only [List.length_cons]; omega) hin hk hc.symm (by omega),
      (emit_diag _ _ _).1]

theorem run_cmds_len (f : Nat) (rest : List Byte) (cmds : List Cmd) :
    ∀ s : State, Framed s → (∀ c ∈ cmds, c.complete = true ∧ c.fits = true) →
      s.input = file_of cmds ++ rest →
      ∃ s1, run_loop write_all (cmds.length + f) s = run_loop write_all f s1
        ∧ Framed s1 ∧ s1.input = rest
        ∧ s1.output = s.output ++ frames s.len_slot cmds
        ∧ s1.cmd_length = last_stored s.cmd_length cmds := by
  induction cmds with
  | nil =>
    intro s hF _ hin
    exact ⟨s, by simp, hF, by simpa [file_of] using hin, by simp [frames], rfl⟩
  | cons c cs ih =>
    intro s hF hall hin
    have hc := hall c (List.mem_cons_self _ _)
    simp only [file_of, List.append_assoc] at hin
    have hlen := iteration_cmd_len s c (file_of cs ++ rest) hF hc.1 hc.2 hin
    obtain ⟨s1, hit, hF1, hin1, hout1, hslot1, _, _⟩ :=
      iteration_cmd s c (file_of cs ++ rest) hF hc.1 hc.2 hin
    rw [hit] at hlen
    obtain ⟨s2, hrun, hF2, hin2, hout2, hlen2⟩ :=
      ih s1 hF1 (fun d hd => hall d (List.mem_cons_of_mem _ hd)) hin1
    refine ⟨s2, ?_, hF2, hin2, ?_, ?_⟩
    · have e : (c :: cs).length + f = (cs.length + f) + 1 := by
        simp only [List.length_cons]; omega
      rw [e, run_loop, hit]
      exact hrun
    · rw [hout2, hout1, hslot1]
      simp [frames]
    · rw [hlen2]
      simp only at hlen
      rw [hlen]
      rfl

theorem main_after_len (cmds : List Cmd) (tl : List Byte)
    (hall : ∀ c ∈ cmds, c.complete = true ∧ c.fits = true) :
    ∃ s1 f, main write_all (file_of cmds ++ tl) = run_loop write_all (f + 1) s1
      ∧ Framed s1 ∧ s1.input = tl ∧ s1.output = frames 0 cmds
      ∧ s1.cmd_length = last_stored 0 cmds := by
  have hle := file_of_length cmds
  obtain ⟨s1, hrun, hF, hin, hout, hlen⟩ :=
    run_cmds_len ((file_of cmds).length - cmds.length + tl.length + 1) tl cmds
      (entry (file_of cmds ++ tl)) (framed_entry _) hall rfl
  refine ⟨s1, (file_of cmds).length - cmds.length + tl.length, ?_, hF, hin, ?_, ?_⟩
  · rw [main_eq, ← hrun]
    congr 1
    simp only [List.length_append]
    omega
  · simpa [entry, initial] using hout
  · simpa [entry, initial] using hlen

/-! ## Runs with memory behind the array -/

theorem main_mem_eq (wr : Nat → Int) (behind input : List Byte) :
    main_mem wr behind input
      = run_loop wr (input.length + 1) (entry_mem behind input) := by
  unfold main_mem initial_mem entry_mem initial kPacketSize
  simp [store, List.replicate_succ]

theorem framed_mem_entry (behind input : List Byte) :
    FramedMem (entry_mem behind input) := by
  unfold FramedMem entry_mem kPacketSize
  simp

theorem entry_mem_length (behind input : List Byte) :
    (entry_mem behind input).packet.length = kPacketSize + behind.length := by
  unfold entry_mem kPacketSize
  simp
  omega

theorem framed_mem_of_framed (s : State) (h : Framed s) : FramedMem s :=
  ⟨Nat.le_of_eq h.1.symm, h.2⟩

theorem framed_mem_split (s : State) (h : FramedMem s) :
    ∃ p1 q2 m0 m1 m2 t, s.packet = kStartByte :: p1 :: q2 :: m0 :: m1 :: m2 :: t
      ∧ t.length + 6 = s.packet.length := by
  obtain ⟨hl, hh⟩ := h
  unfold kPacketSize at hl
  match hs : s.packet, hl, hh with
  | q0 :: p1 :: q2 :: m0 :: m1 :: m2 :: t, hl, hh =>
    simp only [List.head?_cons, Option.some.injEq] at hh
    subst hh
    exact ⟨p1, q2, m0, m1, m2, t, rfl, by simp only [List.length_cons]⟩

theorem framed_mem_of_cons (s : State) (p1 : Byte) (t : List Byte)
    (hp : s.packet = kStartByte :: p1 :: t) (ht : 33 ≤ t.length) : FramedMem s := by
  unfold FramedMem kPacketSize
  rw [hp]
  simp
  omega

theorem iteration_cmd_mem (s : State) (c : Cmd) (rest : List Byte)
    (hF : FramedMem s) (hc : c.complete = true)
    (hf : c.body.length + 4 ≤ s.packet.length)
    (hin : s.input = c.bytes ++ rest) :
    ∃ s1, iteration write_all s = (.again, s1) ∧ FramedMem s1
      ∧ s1.packet.length = s.packet.length ∧ s1.input = rest
      ∧ s1.output = s.output ++ [frame s.len_slot c]
      ∧ s1.len_slot = len_byte s.len_slot c := by
  obtain ⟨p1, q2, m0, m1, m2, t, hp, ht⟩ := framed_mem_split s hF
  have h35 := hF.1
  unfold kPacketSize at h35
  obtain ⟨op, body⟩ := c
  unfold Cmd.complete at hc
  simp only [Bool.and_eq_true, decide_eq_true_eq] at hc hf
  obtain ⟨hk, hc⟩ := hc
  simp only [Cmd.bytes, List.cons_append] at hin
  have hslot : s.len_slot = p1 := by
    unfold State.len_slot
    rw [hp]
    rfl
  by_cases hT : (commands op.val).length = kToolActionLength
  · have hop : op = 136 := table_tool op hk hT
    subst hop
    rw [if_pos hT] at hc
    match body, hc, hf, hin with
    | h0 :: h1 :: k :: b, hc, hf, hin =>
      simp only [decide_eq_true_eq] at hc
      simp only [List.length_cons] at hf
      have hgot : List.take k.val (b ++ rest) = b := by
        rw [← hc]
        exact List.take_left b rest
      have hdrop : List.drop k.val (b ++ rest) = rest := by
        rw [← hc]
        exact List.drop_left b rest
      have hbt : (b ++ List.drop b.length t).take k.val = b := by
        rw [← hc]
        exact List.take_left b _
      have h := iteration_tool_gen s kStartByte p1 q2 m0 m1 m2 h0 h1 k t (b ++ rest)
        hp (by simpa using hin) (by omega)
      rw [hgot, hdrop, hbt] at h
      refine ⟨_, h, ?_, ?_, rfl, ?_, ?_⟩
      · apply framed_mem_of_cons _ p1 _ rfl
        simp only [List.length_cons, List.length_append, List.length_drop]
        omega
      · rw [hp]
        simp only [List.length_cons, List.length_append, List.length_drop]
        omega
      · rw [hslot]
        simp [frame, len_byte, hT]
      · rw [hslot]
        simp [State.len_slot, len_byte, hT]
  · obtain ⟨h0, h25⟩ := table_fixed op hk hT
    rw [if_neg hT] at hc
    simp only [decide_eq_true_eq] at hc
    have h := iteration_fixed s kStartByte p1 q2 op (m0 :: m1 :: m2 :: t) body rest
      hp (by simp only [List.length_cons]; omega) hin hk hc.symm (by omega)
    refine ⟨_, h, ?_, ?_, rfl, ?_, ?_⟩
    · apply framed_mem_of_cons _ _ _ rfl
      simp only [List.length_cons, List.length_append, List.length_drop]
      omega
    · rw [hp]
      simp only [List.length_cons, List.length_append, List.length_drop]
      omega
    · simp [frame, len_byte, hT]
    · simp [State.len_slot, len_byte, hT]

theorem run_cmds_mem (f : Nat) (rest : List Byte) (cmds : List Cmd) :
    ∀ s : State, FramedMem s →
      (∀ c ∈ cmds, c.complete = true ∧ c.body.length + 4 ≤ s.packet.length) →
      s.input = file_of cmds ++ rest →
      ∃ s1, run_loop write_all (cmds.length + f) s = run_loop write_all f s1
        ∧ FramedMem s1 ∧ s1.input = rest
        ∧ s1.output = s.output ++ frames s.len_slot cmds := by
  induction cmds with
  | nil =>
    intro s hF _ hin
    exact ⟨s, by simp, hF, by simpa [file_of] using hin, by simp [frames]⟩
  | cons c cs ih =>
    intro s hF hall hin
    have hc := hall c (List.mem_cons_self _ _)
    simp only [file_of, List.append_assoc] at hin
    obtain ⟨s1, hit, hF1, hlen1, hin1, hout1, hslot1⟩ :=
      iteration_cmd_mem s c (file_of cs ++ rest) hF hc.1 hc.2 hin
    obtain ⟨s2, hrun, hF2, hin2, hout2⟩ :=
      ih s1 hF1 (fun d hd => by
        rw [hlen1]
        exact hall d (List.mem_cons_of_mem _ hd)) hin1
    refine ⟨s2, ?_, hF2, hin2, ?_⟩
    · have e : (c :: cs).length + f = (cs.length + f) + 1 := by
        simp only [List.length_cons]; omega
      rw [e, run_loop, hit]
      exact hrun
    · rw [hout2, hout1, hslot1]
      simp [frames]

theorem main_mem_complete (behind : List Byte) (cmds : List Cmd)
    (hall : ∀ c ∈ cmds,
      c.complete = true ∧ c.body.length + 4 ≤ kPacketSize + behind.length) :
    ∃ s1, main_mem write_all behind (file_of cmds) = (.success, s1)
      ∧ s1.output = frames 0 cmds ∧ s1.input = [] := by
  have hle := file_of_length cmds
  obtain ⟨s1, hrun, hF, hin, hout⟩ :=
    run_cmds_mem ((file_of cmds).length - cmds.length + 1) [] cmds
      (entry_mem behind (file_of cmds ++ [])) (framed_mem_entry _ _)
      (by rw [entry_mem_length]; exact hall) rfl
  rw [List.append_nil] at hrun
  obtain ⟨p1, q2, m0, m1, m2, t, hp, _⟩ := framed_mem_split s1 hF
  refine ⟨s1, ?_, ?_, hin⟩
  · have e : (file_of cmds).length + 1
        = cmds.length + ((file_of cmds).length - cmds.length + 1) := by omega
    rw [main_mem_eq, e, hrun, run_loop, iteration_eof write_all s1 _ _ _ hp hin]
  · simpa [entry_mem, initial, State.len_slot] using hout

/-- A complete command has at most 3 + 255 bytes after its command byte, so
227 bytes of memory behind the array hold the packet of any of them. -/
theorem complete_fits_mem (c : Cmd) (behind : List Byte) (hc : c.complete = true)
    (hb : 227 ≤ behind.length) : c.body.length + 4 ≤ kPacketSize + behind.length := by
  obtain ⟨op, body⟩ := c
  unfold Cmd.complete at hc
  unfold kPacketSize
  simp only [Bool.and_eq_true, decide_eq_true_eq] at hc
  obtain ⟨hk, hc⟩ := hc
  by_cases hT : (commands op.val).length = kToolActionLength
  · rw [if_pos hT] at hc
    match body, hc with
    | h0 :: h1 :: k :: b, hc =>
      simp only [decide_eq_true_eq] at hc
      have := k.isLt
      simp only [List.length_cons]
      omega
  · obtain ⟨h0, h25⟩ := table_fixed op hk hT
    rw [if_neg hT] at hc
    simp only [decide_eq_true_eq] at hc
    show body.length + 4 ≤ 32 + 3 + behind.length
    omega

/-- C1: on every byte sequence `compute_crc` returns the reference
Maxim/iButton CRC-8 of the specification, and on the empty sequence it
returns 0. -/
theorem C1_compute_crc_reference :
    (∀ bytes : List Byte,
      (compute_crc bytes bytes.length).map Fin.val = some (crc_reference bytes))
    ∧ compute_crc [] 0 = some 0 := by
  refine ⟨fun bytes => ?_, rfl⟩
  have h := compute_crc_append bytes []
  rw [List.append_nil] at h
  rw [h, Option.map_some', crc_of, crc_fold_val]
  rfl

/-! ## Claim C2 -/

set_option maxRecDepth 100000 in
/-- C2 (the code departs from it): on the input `86 00` (CHANGE_TOOL, body
`00`) the run succeeds and writes the single packet `D5 02 86 00 00`. Its
last byte `00` is the CRC of the body `00` alone, while the CRC of the
payload `86 00`, command byte included, is `85`. -/
theorem C2_checksum_omits_opcode :
    main write_all [0x86, 0x00]
        = (.success,
            { input := [], output := [[0xD5, 0x02, 0x86, 0x00, 0x00]],
              packet := [0xD5, 0x02, 0x86, 0x00, 0x00] ++ List.replicate 30 0,
              bytes_read := 2, this_command := 0x86, cmd_length := 1 })
      ∧ compute_crc [0x00] 1 = some 0x00
      ∧ compute_crc [0x86, 0x00] 2 = some 0x85 := by
  decide

/-! ## Claim C3 -/

/-- C3: for a known command byte `c` whose table length is the fixed number
`n`, and an input holding at least `n` bytes after `c`, one pass through the
loop body (entered with the loop invariant `Framed`) goes round again having
consumed `c` and exactly the next `n` bytes, and has written one packet
whose second byte is `n + 1` and which carries `c` and those `n` bytes. -/
theorem C3_fixed_length (s : State) (c : Byte) (tail : List Byte) (n : Nat)
    (hF : Framed s) (hk : (commands c.val).is_known_command = true)
    (hl : (commands c.val).length = (n : Int))
    (hin : s.input = c :: tail) (hn : n ≤ tail.length) :
    ∃ s1 pkt, iteration write_all s = (.again, s1)
      ∧ s1.input = tail.drop n
      ∧ s1.bytes_read = s.bytes_read + 1 + n
      ∧ s1.output = s.output ++ [pkt]
      ∧ pkt[1]?.map Fin.val = some (n + 1)
      ∧ unframe pkt = c :: tail.take n := by
  obtain ⟨p1, q2, m0, m1, m2, t, hp, ht⟩ := framed_split s hF
  have hT : (commands c.val).length ≠ kToolActionLength := by
    rw [hl]; unfold kToolActionLength; omega
  obtain ⟨h0, h25⟩ := table_fixed c hk hT
  have hlen : (tail.take n).length = n := by
    rw [List.length_take]; omega
  have hin2 : s.input = c :: (tail.take n ++ tail.drop n) := by
    rw [List.take_append_drop]; exact hin
  have h := iteration_fixed s _ _ _ c (m0 :: m1 :: m2 :: t) (tail.take n)
    (tail.drop n) hp (by simp only [List.length_cons]; omega) hin2 hk
    (by rw [hlen]; exact hl) (by omega)
  rw [hlen] at h
  refine ⟨_, _, h, rfl, rfl, rfl, ?_, ?_⟩
  · have h256 : (n + 1) % 256 = n + 1 := by omega
    simp [Fin.ofNat, h256]
  · unfold unframe
    rw [List.drop_succ_cons, List.drop_succ_cons, List.drop_zero,
      ← List.cons_append, List.dropLast_concat]

/-- C3 at CHANGE_TOOL (`86`, fixed length 1) with body `00`, on entry to the
loop. -/
theorem C3_fixed_length_witness :
    ∃ s1 pkt, iteration write_all (entry [0x86, 0x00]) = (.again, s1)
      ∧ s1.input = List.drop 1 [0x00]
      ∧ s1.bytes_read = (entry [0x86, 0x00]).bytes_read + 1 + 1
      ∧ s1.output = (entry [0x86, 0x00]).output ++ [pkt]
      ∧ pkt[1]?.map Fin.val = some (1 + 1)
      ∧ unframe pkt = 0x86 :: List.take 1 [0x00] :=
  C3_fixed_length (entry [0x86, 0x00]) 0x86 [0x00] 1 (by decide) (by decide)
    (by decide) rfl (by decide)

/-! ## Claim C4 -/

set_option maxRecDepth 100000 in
/-- C5 (the code departs from it): the TOOL_ACTION branch never stores into
`packet[1]`. A TOOL_ACTION command with count byte 0 that comes first is
written with length byte `00` (the claim says `04`), and one with count byte
2 that follows a CHANGE_TOOL command is written with that command's length
byte `02` (the claim says `06`).

The run on `88 00 00 00`, line by line of the source. Line 372: `packet` is
a static array, all zero. Line 377: `packet[0] = D5`. Line 381: one byte is
read to `packet + 2`, so `packet[2] = 88`, `n = 1`. Lines 384 to 386:
`id = 136`, row 136 is named. Line 388: `length = -1`. Line 389: the test
`length == kToolActionLength` holds. Line 391: three bytes are read to
`packet + 3`, so `packet[3..5] = 00 00 00`, `n = 3`. Line 393:
`length = packet[5] = 0`. Line 395: zero bytes are read. Line 396:
`length = 3`. Line 406: `packet[6] = compute_crc(packet + 3, 3) = 00`. Line
408: `write(1, packet, 7)` sends `D5 00 88 00 00 00 00`. The only store to
`packet[1]` in the program is line 401, in the other branch, so `packet[1]`
still holds its initial 0. Line 381 again: nothing is left to read, `n = 0`,
line 382 leaves the loop.

The run on `86 07 88 00 00 02 04 05`. First pass: `packet[2] = 86`, row 134
has length 1, line 389 fails, line 401 stores `packet[1] = 2`, line 402
reads `07` to `packet[3]`, line 406 stores `packet[4] = 83`, line 408 sends
`D5 02 86 07 83`. Second pass: `packet[2] = 88`, line 389 holds, lines 391
to 396 read `00 00 02` to `packet[3..5]` and `04 05` to `packet[6..7]` and
leave `length = 5`, line 406 stores `packet[8] = 4B`, line 408 sends 9 bytes
from `packet`, whose second byte is still the `02` of the first pass. -/
theorem C5_tool_action_length_byte_stale :
    (main write_all [0x88, 0x00, 0x00, 0x00])
        = (.success,
            { input := [], output := [[0xD5, 0x00, 0x88, 0x00, 0x00, 0x00, 0x00]],
              packet := [0xD5, 0x00, 0x88] ++ List.replicate 32 0,
              bytes_read := 4, this_command := 0x88, cmd_length := 0 })
      ∧ (main write_all [0x86, 0x07, 0x88, 0x00, 0x00, 0x02, 0x04, 0x05]).2.output
        = [[0xD5, 0x02, 0x86, 0x07, 0x83],
           [0xD5, 0x02, 0x88, 0x00, 0x00, 0x02, 0x04, 0x05, 0x4B]] := by
  decide

/-! ## Claim C6 -/

/-- C7: on every input, every packet the run writes starts with the byte
`D5`, and its length is the payload length of its command plus 3, the payload
length being that of the command whose bytes the packet carries from index 2
on (command byte plus body, for TOOL_ACTION command byte, header and as many
bytes as the count byte says). -/
theorem C7_packet_shape (input pkt : List Byte)
    (h : pkt ∈ (main write_all input).2.output) :
    pkt.head? = some (0xD5 : Byte)
      ∧ ∃ n, payload_length (pkt.drop 2) = some n ∧ pkt.length = n + 3 := by
  rw [main_eq] at h
  exact run_loop_shape (input.length + 1) (entry input) (framed_entry input)
    (fun p hp => by simp [entry, initial] at hp) pkt h

/-- C7 at the packet written for the input `86 07`. -/
theorem C7_packet_shape_witness :
    List.head? [(0xD5 : Byte), 0x02, 0x86, 0x07, 0x83] = some (0xD5 : Byte)
      ∧ ∃ n, payload_length (List.drop 2 [(0xD5 : Byte), 0x02, 0x86, 0x07, 0x83]) = some n
          ∧ [(0xD5 : Byte), 0x02, 0x86, 0x07, 0x83].length = n + 3 :=
  C7_packet_shape [0x86, 0x07] [0xD5, 0x02, 0x86, 0x07, 0x83] (by decide)

/-! ## Claim C8 -/

/-- C9: when the loop reads as command byte a byte `u` whose table row has no
name, the run dies with "encountered unknown command" (exit status 1) and
writes nothing for it. After any complete commands that fit the packet
buffer, the output is exactly what the run on those commands alone writes,
one packet per command; and from any loop state that satisfies the loop
invariant, whatever the `write` behaviour, the output is left as it was. -/
theorem C9_unknown_opcode (cmds : List Cmd) (u : Byte) (rest : List Byte)
    (hall : ∀ c ∈ cmds, c.complete = true ∧ c.fits = true)
    (hu : (commands u.val).is_known_command = false) :
    (main write_all (file_of cmds ++ u :: rest)).1 = .die .unknown_command
      ∧ (main write_all (file_of cmds ++ u :: rest)).1.status = some 1
      ∧ (main write_all (file_of cmds ++ u :: rest)).2.output
          = (main write_all (file_of cmds)).2.output
      ∧ (main write_all (file_of cmds ++ u :: rest)).2.output.length = cmds.length
      ∧ (main write_all (file_of cmds ++ u :: rest)).2.output.map unframe
          = cmds.map Cmd.bytes
      ∧ ∀ (wr : Nat → Int) (s : State) (fuel : Nat), Framed s →
          s.input = u :: rest →
          (run_loop wr (fuel + 1) s).1 = .die .unknown_command
            ∧ (run_loop wr (fuel + 1) s).2.output = s.output := by
  have key : ∀ (wr : Nat → Int) (s : State) (fuel : Nat), Framed s →
      s.input = u :: rest →
      (run_loop wr (fuel + 1) s).1 = .die .unknown_command
        ∧ (run_loop wr (fuel + 1) s).2.output = s.output := by
    intro wr s fuel hF hin
    obtain ⟨p1, q2, m0, m1, m2, t, hp, _⟩ := framed_split s hF
    rw [run_loop, iteration_unknown wr s _ _ _ u _ rest hp hin hu]
    exact ⟨rfl, rfl⟩
  obtain ⟨s1, f, hrun, hF, hin, hout, _, _⟩ := main_after cmds (u :: rest) hall
  obtain ⟨s0, hrun0, hout0, _, _⟩ := main_complete cmds hall
  obtain ⟨h1, h2⟩ := key write_all s1 f hF hin
  rw [hrun, hrun0, h1, h2, hout]
  refine ⟨rfl, rfl, hout0.symm, frames_length 0 cmds, unframe_frames 0 cmds, key⟩

/-- C9 at the input `86 07 00 02`: a CHANGE_TOOL command, then the unknown
command byte `00`. -/
theorem C9_unknown_opcode_witness :
    (main write_all (file_of [⟨0x86, [0x07]⟩] ++ 0x00 :: [0x02])).1
        = .die .unknown_command
      ∧ (main write_all (file_of [⟨0x86, [0x07]⟩] ++ 0x00 :: [0x02])).1.status = some 1
      ∧ (main write_all (file_of [⟨0x86, [0x07]⟩] ++ 0x00 :: [0x02])).2.output
          = (main write_all (file_of [⟨0x86, [0x07]⟩])).2.output
      ∧ (main write_all (file_of [⟨0x86, [0x07]⟩] ++ 0x00 :: [0x02])).2.output.length
          = [(⟨0x86, [0x07]⟩ : Cmd)].length
      ∧ (main write_all (file_of [⟨0x86, [0x07]⟩] ++ 0x00 :: [0x02])).2.output.map unframe
          = [(⟨0x86, [0x07]⟩ : Cmd)].map Cmd.bytes
      ∧ Framed (entry [0x00, 0x02])
      ∧ (run_loop write_all (0 + 1) (entry [0x00, 0x02])).1 = .die .unknown_command
      ∧ (run_loop write_all (0 + 1) (entry [0x00, 0x02])).2.output
          = (entry [0x00, 0x02]).output :=
  have h := C9_unknown_opcode [⟨0x86, [0x07]⟩] 0x00 [0x02] (by decide) (by decide)
  ⟨h.1, h.2.1, h.2.2.1, h.2.2.2.1, h.2.2.2.2.1, by decide,
    h.2.2.2.2.2 write_all (entry [0x00, 0x02]) 0 (by decide) rfl⟩

/-! ## Claim C10 -/

/-- C10: after any complete commands that fit the packet buffer, a known
command byte `c` followed by the bytes `b` and end of stream, where `b` is
shorter than the `n` body bytes a fixed length command needs, or shorter than
the 3 header bytes of TOOL_ACTION, makes the run die (exit status 1) with
"truncated packet body", or "truncated tool action command header", having
read all the input and written nothing for that command. -/
theorem C10_truncated_input (cmds : List Cmd) (c : Byte) (b : List Byte)
    (hall : ∀ d ∈ cmds, d.complete = true ∧ d.fits = true)
    (hk : (commands c.val).is_known_command = true)
    (hshort : (b.length : Int) <
      (if (commands c.val).length = kToolActionLength then 3
        else (commands c.val).length)) :
    (main write_all (file_of cmds ++ c :: b)).1
        = .die (if (commands c.val).length = kToolActionLength
            then .truncated_header else .truncated_body)
      ∧ (main write_all (file_of cmds ++ c :: b)).1.status = some 1
      ∧ (main write_all (file_of cmds ++ c :: b)).2.input = []
      ∧ (main write_all (file_of cmds ++ c :: b)).2.output
          = (main write_all (file_of cmds)).2.output
      ∧ (main write_all (file_of cmds ++ c :: b)).2.output.length = cmds.length
      ∧ Msg.truncated_body.text = "truncated packet body"
      ∧ Msg.truncated_header.text = "truncated tool action command header" := by
  obtain ⟨s1, f, hrun, hF, hin, hout, _, _⟩ := main_after cmds (c :: b) hall
  obtain ⟨s0, hrun0, hout0, _, _⟩ := main_complete cmds hall
  obtain ⟨p1, q2, m0, m1, m2, t, hp, ht⟩ := framed_split s1 hF
  rw [hrun, hrun0, run_loop]
  by_cases hT : (commands c.val).length = kToolActionLength
  · have hop : c = 136 := table_tool c hk hT
    subst hop
    rw [if_pos hT] at hshort
    rw [if_pos hT, iteration_header_short write_all s1 _ _ _ (m0 :: m1 :: m2 :: t) b hp
      (by simp only [List.length_cons]; omega) hin (by omega)]
    exact ⟨rfl, rfl, rfl, by rw [hout, hout0], by rw [hout, frames_length], rfl, rfl⟩
  · obtain ⟨h0, h25⟩ := table_fixed c hk hT
    rw [if_neg hT] at hshort
    obtain ⟨n, hn⟩ : ∃ n : Nat, (commands c.val).length = (n : Int) :=
      ⟨(commands c.val).length.toNat, by omega⟩
    rw [if_neg hT, iteration_fixed_short write_all s1 _ _ _ c (m0 :: m1 :: m2 :: t) b n
      hp (by simp only [List.length_cons]; omega) hin hk hn (by omega) (by omega)]
    exact ⟨rfl, rfl, rfl, by rw [hout, hout0], by rw [hout, frames_length], rfl, rfl⟩

/-- C10 at the inputs `86 07 85 01 02` (DELAY needs 4 body bytes, 2 are
there) and `86 07 88 00 00` (TOOL_ACTION with 2 of its 3 header bytes). -/
theorem C10_truncated_input_witness :
    ((main write_all (file_of [⟨0x86, [0x07]⟩] ++ 0x85 :: [0x01, 0x02])).1
        = .die .truncated_body
      ∧ (main write_all (file_of [⟨0x86, [0x07]⟩] ++ 0x85 :: [0x01, 0x02])).2.output
        = (main write_all (file_of [⟨0x86, [0x07]⟩])).2.output)
    ∧ ((main write_all (file_of [⟨0x86, [0x07]⟩] ++ 0x88 :: [0x00, 0x00])).1
        = .die .truncated_header
      ∧ (main write_all (file_of [⟨0x86, [0x07]⟩] ++ 0x88 :: [0x00, 0x00])).2.output
        = (main write_all (file_of [⟨0x86, [0x07]⟩])).2.output) :=
  ⟨⟨(C10_truncated_input [⟨0x86, [0x07]⟩] 0x85 [0x01, 0x02] (by decide) (by decide)
        (by decide)).1,
    (C10_truncated_input [⟨0x86, [0x07]⟩] 0x85 [0x01, 0x02] (by decide) (by decide)
        (by decide)).2.2.2.1⟩,
   ⟨(C10_truncated_input [⟨0x86, [0x07]⟩] 0x88 [0x00, 0x00] (by decide) (by decide)
        (by decide)).1,
    (C10_truncated_input [⟨0x86, [0x07]⟩] 0x88 [0x00, 0x00] (by decide) (by decide)
        (by decide)).2.2.2.1⟩⟩

/-! ## Claim C11 -/

set_option maxRecDepth 100000 in
/-- C11 (the code departs from it): the result of the body read of the
TOOL_ACTION branch is never compared with the count byte. On the input
`88 00 00 02 04`, a TOOL_ACTION command that announces 2 body bytes and ends
after 1, the run ends successfully and has written a packet of 9 bytes. On
`85 01 02 03 04 88 00 00 02 09` the second packet carries, in place of the
missing body byte, the byte `F4` that the DELAY command before it left in the
array. -/
theorem C11_truncated_tool_action_body_accepted :
    main write_all [0x88, 0x00, 0x00, 0x02, 0x04]
        = (.success,
            { input := [],
              output := [[0xD5, 0x00, 0x88, 0x00, 0x00, 0x02, 0x04, 0x00, 0x74]],
              packet := [0xD5, 0x00, 0x88, 0x00, 0x00, 0x02, 0x04, 0x00, 0x74]
                ++ List.replicate 26 0,
              bytes_read := 5, this_command := 0x88, cmd_length := 2 })
      ∧ (main write_all
          [0x85, 0x01, 0x02, 0x03, 0x04, 0x88, 0x00, 0x00, 0x02, 0x09]).1 = .success
      ∧ (main write_all
          [0x85, 0x01, 0x02, 0x03, 0x04, 0x88, 0x00, 0x00, 0x02, 0x09]).2.output
        = [[0xD5, 0x05, 0x85, 0x01, 0x02, 0x03, 0x04, 0xF4],
           [0xD5, 0x05, 0x88, 0x00, 0x00, 0x02, 0x09, 0xF4, 0xE8]] := by
  decide

/-! ## Claim C12 -/

set_option maxRecDepth 100000 in
/-- C12 (the code departs from it): the count byte of TOOL_ACTION is never
checked against the size of the array. On a TOOL_ACTION command with count
byte 30 and its 30 body bytes the run does not die: the body read is handed
`packet + 6` and 30 bytes, which reach `packet[35]`. With count byte 29 the
body fits and the checksum is stored at `packet[35]`. In both runs an index
of 35 is used, and no exit status is defined. -/
theorem C12_count_byte_unchecked :
    (main write_all ([0x88, 0x00, 0x00, 30] ++ List.replicate 30 1)).1 = .overrun
      ∧ (main write_all ([0x88, 0x00, 0x00, 30] ++ List.replicate 30 1)).1.status = none
      ∧ read_or_die
          { entry [] with input := List.replicate 30 1 } 6 30 = none
      ∧ (main write_all ([0x88, 0x00, 0x00, 29] ++ List.replicate 29 1)).1 = .overrun
      ∧ store (kStartByte :: List.replicate 34 0) (3 + (29 + 3)) [0x00] = none := by
  decide

/-! ## Claim C13 -/

set_option maxRecDepth 100000 in
/-- C13 (the code departs from it): after `write_or_die` only a result of 0
is fatal. When each `write` of a 5 byte packet accepts 3 bytes, the run on
`86 00 86 01` goes on to the next command and ends successfully, leaving two
cut packets in the output; when `write` accepts nothing the run dies.

The run on `86 00 86 01` with every `write(1, packet, 5)` returning 3, line
by line of the source. Line 377: `packet[0] = D5`. Line 381:
`packet[2] = 86`, `n = 1`. Lines 384 to 388: `id = 134`, row 134 is named,
`length = 1`. Line 389 fails, so the else branch runs: line 398
`cmd_length = 1`, lines 399 and 400 pass, line 401 `packet[1] = 2`, line 402
reads `00` to `packet[3]` with `n = 1`, line 403 passes. Line 406:
`packet[4] = compute_crc(packet + 3, 1) = 00`. Line 408: `write_or_die(1,
packet, 5)`; inside it, line 344 `n = 3`, the test `n < 0` of line 345
fails, line 349 returns 3. Line 409: the test `n == 0` fails, so `die` is not
called, although only `D5 02 86` of the five bytes went out. The loop goes
round: the second pass does the same with body byte `01`
(`packet[4] = 5E`), `write` again returns 3, line 409 again does nothing.
Third pass, line 381: nothing left, `n = 0`, line 382 leaves the loop and
`main` returns 0. -/
theorem C13_short_write_not_fatal :
    main (fun _ => 3) [0x86, 0x00, 0x86, 0x01]
        = (.success,
            { input := [], output := [[0xD5, 0x02, 0x86], [0xD5, 0x02, 0x86]],
              packet := [0xD5, 0x02, 0x86, 0x01, 0x5E] ++ List.replicate 30 0,
              bytes_read := 4, this_command := 0x86, cmd_length := 1 })
      ∧ (main (fun _ => 0) [0x86, 0x00, 0x86, 0x01]).1 = .die .failed_write
      ∧ (main (fun _ => -1) [0x86, 0x00, 0x86, 0x01]).1 = .die .writing := by
  decide

/-! ## Runs that die before a length is determined -/

theorem iteration_again_parse (s s1 : State) (hF : Framed s)
    (h : iteration write_all s = (.again, s1)) (hne : s1.input ≠ []) :
    ∃ c : Cmd, c.complete = true ∧ c.fits = true ∧ s.input = c.bytes ++ s1.input := by
  obtain ⟨p1, q2, m0, m1, m2, t, hp, ht⟩ := framed_split s hF
  match hin : s.input with
  | [] =>
    rw [iteration_eof write_all s _ _ _ hp hin] at h
    cases h
  | c :: tail =>
    by_cases hk : (commands c.val).is_known_command = true
    · by_cases hT : (commands c.val).length = kToolActionLength
      · have hop : c = 136 := table_tool c hk hT
        subst hop
        have hshort : ∀ b : List Byte, s.input = 136 :: b → b.length < 3 → False := by
          intro b hb hlen
          rw [iteration_header_short write_all s _ _ _ (m0 :: m1 :: m2 :: t) b hp
            (by simp only [List.length_cons]; omega) hb hlen] at h
          cases h
        match tail, hin with
        | [], hin => exact (hshort [] hin (by simp)).elim
        | [a], hin => exact (hshort [a] hin (by simp)).elim
        | [a, b], hin => exact (hshort [a, b] hin (by simp)).elim
        | h0 :: h1 :: k :: tail2, hin =>
          by_cases hfit : k.val < t.length
          · rw [iteration_tool_gen s _ _ _ _ _ _ h0 h1 k t tail2 hp hin hfit] at h
            have hi : s1.input = tail2.drop k.val := by
              have := congrArg (fun r => r.2.input) h
              exact this.symm
            have hlt : k.val < tail2.length := by
              by_contra hge
              apply hne
              rw [hi]
              exact List.drop_of_length_le (by omega)
            have hgl : (tail2.take k.val).length = k.val := by
              rw [List.length_take]; omega
            refine ⟨⟨136, h0 :: h1 :: k :: tail2.take k.val⟩, ?_, ?_, ?_⟩
            · unfold Cmd.complete
              simp [hk, hT, hgl]
            · unfold Cmd.fits kPacketSize
              simp only [List.length_cons, hgl, decide_eq_true_eq]
              omega
            · rw [hi]
              simp [Cmd.bytes]
          · have ho := iteration_tool_overrun write_all s _ _ _ _ _ _ h0 h1 k t tail2
              hp hin (by omega)
            rw [h] at ho
            cases ho.1
      · obtain ⟨h0, h25⟩ := table_fixed c hk hT
        obtain ⟨n, hn⟩ : ∃ n : Nat, (commands c.val).length = (n : Int) :=
          ⟨(commands c.val).length.toNat, by omega⟩
        by_cases hshort : tail.length < n
        · rw [iteration_fixed_short write_all s _ _ _ c (m0 :: m1 :: m2 :: t) tail n hp
            (by simp only [List.length_cons]; omega) hin hk hn (by omega) hshort] at h
          cases h
        · have hlen : (tail.take n).length = n := by
            rw [List.length_take]; omega
          have hin2 : s.input = c :: (tail.take n ++ tail.drop n) := by
            rw [List.take_append_drop]; exact hin
          rw [iteration_fixed s _ _ _ c (m0 :: m1 :: m2 :: t) (tail.take n)
            (tail.drop n) hp (by simp only [List.length_cons]; omega) hin2 hk
            (by rw [hlen]; exact hn) (by omega)] at h
          have hi : s1.input = tail.drop n := by
            have := congrArg (fun r => r.2.input) h
            exact this.symm
          have hne2 : ¬ ((n : Int) = kToolActionLength) := by
            rw [← hn]; exact hT
          refine ⟨⟨c, tail.take n⟩, ?_, ?_, ?_⟩
          · unfold Cmd.complete
            simp [hk, hn, hne2, hlen]
          · unfold Cmd.fits kPacketSize
            simp only [hlen, decide_eq_true_eq]
            omega
          · rw [hi]
            simp [Cmd.bytes]
    · rw [Bool.not_eq_true] at hk
      rw [iteration_unknown write_all s _ _ _ c (m0 :: m1 :: m2 :: t) _ hp hin hk] at h
      cases h

theorem iteration_dies_early_head (s : State) (hF : Framed s)
    (h : (iteration write_all s).1 = .die .unknown_command
      ∨ (iteration write_all s).1 = .die .truncated_header) :
    s.input.head? = some (iteration write_all s).2.this_command := by
  obtain ⟨p1, q2, m0, m1, m2, t, hp, ht⟩ := framed_split s hF
  have hemit : ∀ (s5 : State) (len : Nat), iteration write_all s = emit write_all s5 len →
      False := by
    intro s5 len he
    rw [he] at h
    rcases emit_exit write_all s5 len with e | e | e | e <;> rw [e] at h <;> simp at h
  match hin : s.input with
  | [] =>
    rw [iteration_eof write_all s _ _ _ hp hin] at h
    simp at h
  | c :: tail =>
    by_cases hk : (commands c.val).is_known_command = true
    · by_cases hT : (commands c.val).length = kToolActionLength
      · have hop : c = 136 := table_tool c hk hT
        subst hop
        have hshort : ∀ b : List Byte, s.input = 136 :: b → b.length < 3 →
            (iteration write_all s).2.this_command = 136 := by
          intro b hb hlen
          rw [iteration_header_short write_all s _ _ _ (m0 :: m1 :: m2 :: t) b hp
            (by simp only [List.length_cons]; omega) hb hlen]
        match tail, hin with
        | [], hin => rw [hshort [] hin (by simp)]; rfl
        | [a], hin => rw [hshort [a] hin (by simp)]; rfl
        | [a, b], hin => rw [hshort [a, b] hin (by simp)]; rfl
        | h0 :: h1 :: k :: tail2, hin =>
          by_cases hfit : (tail2.take k.val).length ≤ t.length
          · exact (hemit _ _
              (iteration_tool_emit write_all s _ _ _ _ _ _ h0 h1 k t tail2 hp hin
                hfit)).elim
          · rw [iteration_tool_read_overrun write_all s _ _ _ _ _ _ h0 h1 k t tail2 hp hin
              (by omega)] at h
            simp at h
      · obtain ⟨h0, h25⟩ := table_fixed c hk hT
        obtain ⟨n, hn⟩ : ∃ n : Nat, (commands c.val).length = (n : Int) :=
          ⟨(commands c.val).length.toNat, by omega⟩
        by_cases hshort : tail.length < n
        · rw [iteration_fixed_short write_all s _ _ _ c (m0 :: m1 :: m2 :: t) tail n hp
            (by simp only [List.length_cons]; omega) hin hk hn (by omega) hshort] at h
          simp at h
        · have hlen : (tail.take n).length = n := by
            rw [List.length_take]; omega
          have hin2 : s.input = c :: (tail.take n ++ tail.drop n) := by
            rw [List.take_append_drop]; exact hin
          exact (hemit _ _
            (iteration_fixed_emit write_all s _ _ _ c (m0 :: m1 :: m2 :: t) (tail.take n)
              (tail.drop n) hp (by simp only [List.length_cons]; omega) hin2 hk
              (by rw [hlen]; exact hn) (by omega))).elim
    · rw [Bool.not_eq_true] at hk
      rw [iteration_unknown write_all s _ _ _ c (m0 :: m1 :: m2 :: t) _ hp hin hk]
      rfl

theorem run_dies_early (fuel : Nat) :
    ∀ s : State, Framed s →
      ((run_loop write_all fuel s).1 = .die .unknown_command
        ∨ (run_loop write_all fuel s).1 = .die .truncated_header) →
      ∃ cmds tl, s.input = file_of cmds ++ tl
        ∧ (∀ c ∈ cmds, c.complete = true ∧ c.fits = true)
        ∧ tl.head? = some (run_loop write_all fuel s).2.this_command
        ∧ (run_loop write_all fuel s).2.cmd_length = last_stored s.cmd_length cmds := by
  induction fuel with
  | zero =>
    intro s _ h
    simp [run_loop] at h
  | succ fuel ih =>
    intro s hF h
    have hprops := iteration_props write_all s hF
    have hhead := iteration_dies_early_head s hF
    rw [run_loop] at h ⊢
    match hit : iteration write_all s with
    | (.again, s1) =>
      rw [hit] at h hprops
      simp only at h ⊢
      obtain ⟨cmds, tl, hin1, hall, hh, hlen⟩ := ih s1 hprops.1 h
      have hne : s1.input ≠ [] := by
        intro he
        rw [he] at hin1
        have htl : tl = [] := (List.append_eq_nil.mp hin1.symm).2
        rw [htl] at hh
        cases hh
      obtain ⟨c, hc, hf, hin⟩ := iteration_again_parse s s1 hF hit hne
      have hcl := iteration_cmd_len s c s1.input hF hc hf hin
      rw [hit] at hcl
      refine ⟨c :: cmds, tl, ?_, ?_, hh, ?_⟩
      · rw [hin, hin1]
        simp [file_of]
      · intro d hd
        rcases List.mem_cons.mp hd with e | e
        · rw [e]; exact ⟨hc, hf⟩
        · exact hall d e
      · rw [hlen]
        simp only at hcl
        rw [hcl]
        rfl
    | (.success, s1) => rw [hit] at h; simp at h
    | (.overrun, s1) => rw [hit] at h; simp at h
    | (.fuel, s1) => rw [hit] at h; simp at h
    | (.die m, s1) =>
      rw [hit] at h hprops hhead
      simp only at h ⊢
      refine ⟨[], s.input, rfl, by simp, hhead h, ?_⟩
      have := hprops.2.2.2.2.2.1 (Or.inr h)
      simpa [last_stored] using this

/-! ## Claim C14 -/

theorem last_stored_concat (l0 : Nat) (cs : List Cmd) (c : Cmd) :
    last_stored l0 (cs ++ [c]) = c.stored_length := by
  induction cs generalizing l0 with
  | nil => rfl
  | cons d cs ih => exact ih d.stored_length

set_option maxRecDepth 100000 in
/-- C14 fails as stated: on the input `86 07 00` the run dies on the unknown
command byte `00`, for which no length was determined, and `cmd_length` is 1,
the length stored for the CHANGE_TOOL command before it. -/
theorem C14_stale_length_reported :
    (main write_all [0x86, 0x07, 0x00]).1 = .die .unknown_command
      ∧ (main write_all [0x86, 0x07, 0x00]).2.this_command = 0x00
      ∧ (main write_all [0x86, 0x07, 0x00]).2.cmd_length = 1 := by
  decide

/-- C14, amended: `cmd_length` is never reset. When the run dies before a
length was determined for the command being processed (unknown command byte,
or truncated TOOL_ACTION header), `cmd_length` is the value it had when that
command byte was read: 0 when no command came before, and otherwise the
length stored for the command just before (its table length, or its count
byte for TOOL_ACTION, which can be 0 as well). When the run dies after the
length was determined, `cmd_length` is the length computed for the command
named in the diagnostic. These two parts hold from any loop state that
satisfies the loop invariant and for any `write`. The last part says that
every run that dies before a length was determined has this form: complete
commands that fit the packet buffer, then the command it dies on. -/
theorem C14_reported_length (cmds : List Cmd) (u : Byte) (rest b : List Byte)
    (hall : ∀ c ∈ cmds, c.complete = true ∧ c.fits = true)
    (hu : (commands u.val).is_known_command = false) (hb : b.length < 3) :
    ((main write_all (file_of cmds ++ u :: rest)).1 = .die .unknown_command
      ∧ (main write_all (file_of cmds ++ u :: rest)).2.cmd_length
          = last_stored 0 cmds)
    ∧ ((main write_all (file_of cmds ++ 136 :: b)).1 = .die .truncated_header
      ∧ (main write_all (file_of cmds ++ 136 :: b)).2.cmd_length
          = last_stored 0 cmds)
    ∧ last_stored 0 [] = 0
    ∧ (∀ (cs : List Cmd) (c : Cmd), last_stored 0 (cs ++ [c]) = c.stored_length)
    ∧ (∀ (wr : Nat → Int) (s : State), Framed s →
        ((iteration wr s).1 = .die .unknown_command
            ∨ (iteration wr s).1 = .die .truncated_header →
          (iteration wr s).2.cmd_length = s.cmd_length))
    ∧ (∀ (wr : Nat → Int) (s : State) (m : Msg), Framed s →
        (iteration wr s).1 = .die m → m ≠ .unknown_command → m ≠ .truncated_header →
          (iteration wr s).2.cmd_length = (iteration wr s).2.computed_length)
    ∧ (∀ input : List Byte,
        ((main write_all input).1 = .die .unknown_command
          ∨ (main write_all input).1 = .die .truncated_header) →
        ∃ done tl, input = file_of done ++ tl
          ∧ (∀ c ∈ done, c.complete = true ∧ c.fits = true)
          ∧ tl.head? = some (main write_all input).2.this_command
          ∧ (main write_all input).2.cmd_length = last_stored 0 done) := by
  refine ⟨?_, ?_, rfl, last_stored_concat 0, ?_, ?_, ?_⟩
  · obtain ⟨s1, f, hrun, hF, hin, _, hlen⟩ := main_after_len cmds (u :: rest) hall
    obtain ⟨p1, q2, m0, m1, m2, t, hp, _⟩ := framed_split s1 hF
    rw [hrun, run_loop, iteration_unknown write_all s1 _ _ _ u _ rest hp hin hu]
    exact ⟨rfl, hlen⟩
  · obtain ⟨s1, f, hrun, hF, hin, _, hlen⟩ := main_after_len cmds (136 :: b) hall
    obtain ⟨p1, q2, m0, m1, m2, t, hp, ht⟩ := framed_split s1 hF
    rw [hrun, run_loop, iteration_header_short write_all s1 _ _ _ (m0 :: m1 :: m2 :: t) b
      hp (by simp only [List.length_cons]; omega) hin hb]
    exact ⟨rfl, hlen⟩
  · intro wr s hF h
    exact (iteration_props wr s hF).2.2.2.2.2.1 (Or.inr h)
  · intro wr s m hF hm h1 h2
    refine (iteration_props wr s hF).2.2.2.2.2.2 ?_ ?_ ?_
    · rw [hm]; simp
    · rw [hm]; simpa using h1
    · rw [hm]; simpa using h2
  · intro input h
    rw [main_eq] at h ⊢
    exact run_dies_early (input.length + 1) (entry input) (framed_entry input) h

set_option maxRecDepth 100000 in
/-- C14, amended, at the inputs `86 07 00 02` and `86 07 88 00` (both report
the length 1 of the CHANGE_TOOL command before); at `88 00 00 00 00`, where
the TOOL_ACTION command before the unknown command byte has count byte 0 and
the length reported is 0; at the loop state entered on `85 01 02` (DELAY with
2 of its 4 body bytes: the length reported is 4, the computed length of
DELAY); and at the run on `86 07 00`, which is found to be one complete
command and then the command it dies on. -/
theorem C14_reported_length_witness :
    ((main write_all (file_of [⟨0x86, [0x07]⟩] ++ 0x00 :: [0x02])).1
        = .die .unknown_command
      ∧ (main write_all (file_of [⟨0x86, [0x07]⟩] ++ 0x00 :: [0x02])).2.cmd_length
        = last_stored 0 [⟨0x86, [0x07]⟩])
    ∧ ((main write_all (file_of [⟨0x86, [0x07]⟩] ++ 136 :: [0x00])).1
        = .die .truncated_header
      ∧ (main write_all (file_of [⟨0x86, [0x07]⟩] ++ 136 :: [0x00])).2.cmd_length
        = last_stored 0 [⟨0x86, [0x07]⟩])
    ∧ last_stored 0 [⟨0x86, [0x07]⟩] = 1
    ∧ ((main write_all (file_of [⟨0x88, [0x00, 0x00, 0x00]⟩] ++ 0x00 :: [])).1
        = .die .unknown_command
      ∧ (main write_all (file_of [⟨0x88, [0x00, 0x00, 0x00]⟩] ++ 0x00 :: [])).2.cmd_length
        = last_stored 0 [⟨0x88, [0x00, 0x00, 0x00]⟩])
    ∧ last_stored 0 [⟨0x88, [0x00, 0x00, 0x00]⟩] = 0
    ∧ (iteration write_all (entry [0x85, 0x01, 0x02])).1 = .die .truncated_body
    ∧ (iteration write_all (entry [0x85, 0x01, 0x02])).2.cmd_length
        = (iteration write_all (entry [0x85, 0x01, 0x02])).2.computed_length
    ∧ (iteration write_all (entry [0x85, 0x01, 0x02])).2.computed_length = 4
    ∧ (∃ done tl, [0x86, 0x07, 0x00] = file_of done ++ tl
        ∧ (∀ c ∈ done, c.complete = true ∧ c.fits = true)
        ∧ tl.head? = some (main write_all [0x86, 0x07, 0x00]).2.this_command
        ∧ (main write_all [0x86, 0x07, 0x00]).2.cmd_length = last_stored 0 done) :=
  have h := C14_reported_length [⟨0x86, [0x07]⟩] 0x00 [0x02] [0x00] (by decide)
    (by decide) (by decide)
  have g := C14_reported_length [⟨0x88, [0x00, 0x00, 0x00]⟩] 0x00 [] [] (by decide)
    (by decide) (by decide)
  ⟨h.1, h.2.1, by decide, g.1, by decide, by decide,
    h.2.2.2.2.2.1 write_all (entry [0x85, 0x01, 0x02]) .truncated_body (by decide)
      (by decide) (by decide) (by decide),
    by decide,
    h.2.2.2.2.2.2 [0x86, 0x07, 0x00] (by decide)⟩

/-! ## Claim C15 -/

set_option maxRecDepth 100000 in
/-- C15 fails as stated: on the input `86 00 00 02` the run does not end with
exit status 0. After the CHANGE_TOOL packet it reads `00` as the next command
byte and dies with "encountered unknown command", exit status 1. -/
theorem C15_scenario_ends_in_error :
    (main write_all [0x86, 0x00, 0x00, 0x02]).1 = .die .unknown_command
      ∧ (main write_all [0x86, 0x00, 0x00, 0x02]).1.status = some 1
      ∧ (main write_all [0x86, 0x00, 0x00, 0x02]).2.this_command = 0x00
      ∧ (main write_all [0x86, 0x00, 0x00, 0x02]).2.bytes_read = 3 := by
  decide

set_option maxRecDepth 100000 in
/-- C15, amended: on the input `86 00 00 02` the run writes one packet of
five bytes that starts `D5 02 86 00` (its checksum byte is left open here)
and then dies on the unknown command byte `00` with exit status 1, the final
`02` unread; on the input `86 00` it writes one such packet and ends with
exit status 0. -/
theorem C15_scenario :
    ((main write_all [0x86, 0x00, 0x00, 0x02]).1 = .die .unknown_command
      ∧ (main write_all [0x86, 0x00, 0x00, 0x02]).1.status = some 1
      ∧ (main write_all [0x86, 0x00, 0x00, 0x02]).2.input = [0x02]
      ∧ ∃ crc, (main write_all [0x86, 0x00, 0x00, 0x02]).2.output
          = [[0xD5, 0x02, 0x86, 0x00, crc]])
    ∧ ((main write_all [0x86, 0x00]).1 = .success
      ∧ (main write_all [0x86, 0x00]).1.status = some 0
      ∧ ∃ crc, (main write_all [0x86, 0x00]).2.output
          = [[0xD5, 0x02, 0x86, 0x00, crc]]) := by
  refine ⟨⟨by decide, by decide, by decide, 0x00, by decide⟩,
    by decide, by decide, 0x00, by decide⟩

/-! ## Claim C16 -/

set_option maxRecDepth 1000000 in
theorem table_rows : ∀ c : Byte, (commands c.val).is_known_command = true →
    ((commands c.val).length = kToolActionLength ∧ c = 136)
    ∨ ((commands c.val).length ≠ kToolActionLength
        ∧ 0 ≤ (commands c.val).length ∧ (commands c.val).length ≤ 32) := by
  decide

/-- C16: every named row of the table has either the length
`kToolActionLength`, and then it is row 136, or a length between 0 and 32;
row 136 is named and has that length. Hence no run, on any input and with
any behaviour of `write`, dies with "table contains unexpected negative
length" or "table contains bogus length"; and a run leaves the array
`packet` (uses an index above 34) only while the command being processed is
TOOL_ACTION, never while it is a fixed length command. -/
theorem C16_table_lengths :
    (∀ c : Byte, (commands c.val).is_known_command = true →
      ((commands c.val).length = kToolActionLength ∧ c = 136)
      ∨ ((commands c.val).length ≠ kToolActionLength
          ∧ 0 ≤ (commands c.val).length ∧ (commands c.val).length ≤ 32))
    ∧ ((commands 136).is_known_command = true
        ∧ (commands 136).length = kToolActionLength ∧ kToolActionLength = -1)
    ∧ (∀ (wr : Nat → Int) (input : List Byte),
        (main wr input).1 ≠ .die .negative_length
        ∧ (main wr input).1 ≠ .die .bogus_length)
    ∧ (∀ (wr : Nat → Int) (input : List Byte),
        (main wr input).1 = .overrun → (main wr input).2.this_command = 136)
    ∧ (∀ (wr : Nat → Int) (s : State), Framed s →
        (iteration wr s).1 = .overrun → (iteration wr s).2.this_command = 136) := by
  refine ⟨table_rows, ⟨rfl, rfl, rfl⟩, ?_, ?_, ?_⟩
  · intro wr input
    have h := run_loop_props wr (input.length + 1) (entry input) (framed_entry input)
    rw [main_eq]
    exact ⟨h.2.1, h.2.2.1⟩
  · intro wr input
    have h := run_loop_props wr (input.length + 1) (entry input) (framed_entry input)
    rw [main_eq]
    exact h.2.2.2.2
  · intro wr s hF
    exact (iteration_props wr s hF).2.2.2.2.1

set_option maxRecDepth 100000 in
/-- C16 at row 134 (CHANGE_TOOL, length 1) and at the run on a TOOL_ACTION
command with count byte 29, which leaves the array. -/
theorem C16_table_lengths_witness :
    (((commands (134 : Byte).val).length = kToolActionLength ∧ (134 : Byte) = 136)
      ∨ ((commands (134 : Byte).val).length ≠ kToolActionLength
          ∧ 0 ≤ (commands (134 : Byte).val).length
          ∧ (commands (134 : Byte).val).length ≤ 32))
    ∧ (main write_all ([0x88, 0x00, 0x00, 29] ++ List.replicate 29 1)).1 = .overrun
    ∧ (main write_all
        ([0x88, 0x00, 0x00, 29] ++ List.replicate 29 1)).2.this_command = 136 :=
  ⟨C16_table_lengths.1 134 (by decide), by decide,
    C16_table_lengths.2.2.2.1 write_all ([0x88, 0x00, 0x00, 29] ++ List.replicate 29 1)
      (by decide)⟩

/-! ## Claim C17 -/

theorem file_of_append (a b : List Cmd) : file_of (a ++ b) = file_of a ++ file_of b := by
  induction a with
  | nil => rfl
  | cons c cs ih => simp [file_of, ih]

theorem frames_append (p1 : Byte) (a b : List Cmd) :
    frames p1 (a ++ b) = frames p1 a ++ frames (len_after p1 a) b := by
  induction a generalizing p1 with
  | nil => rfl
  | cons c cs ih => simp [frames, len_after, ih]

theorem blank_frame (p q : Byte) (c : Cmd) :
    blank_tool_length (frame p c) = blank_tool_length (frame q c)
      ∧ ((commands c.op.val).length ≠ kToolActionLength → frame p c = frame q c) := by
  unfold frame blank_tool_length len_byte
  by_cases hT : (commands c.op.val).length = kToolActionLength
  · simp [hT]
  · simp [hT]

theorem blank_frames (cmds : List Cmd) :
    ∀ p q : Byte, (frames p cmds).map blank_tool_length
      = (frames q cmds).map blank_tool_length := by
  induction cmds with
  | nil => intro p q; rfl
  | cons c cs ih =>
    intro p q
    simp only [frames, List.map_cons]
    rw [(blank_frame p q c).1, ih (len_byte p c) (len_byte q c)]

/-- Apart from the length byte of TOOL_ACTION packets the output is
compositional: for inputs `a` and `b` that are each a concatenation of
complete commands whose packets lie in the array and the memory `behind` it,
the packets written for `a` followed by `b` are those written for `a`
followed by those written for `b`, once the length byte of every TOOL_ACTION
packet is blanked. -/
theorem output_compositional_up_to_tool_length (behind : List Byte) (a b : List Cmd)
    (ha : ∀ c ∈ a,
      c.complete = true ∧ c.body.length + 4 ≤ kPacketSize + behind.length)
    (hb : ∀ c ∈ b,
      c.complete = true ∧ c.body.length + 4 ≤ kPacketSize + behind.length) :
    (main_mem write_all behind (file_of a ++ file_of b)).2.output.map blank_tool_length
      = ((main_mem write_all behind (file_of a)).2.output
          ++ (main_mem write_all behind (file_of b)).2.output).map
            blank_tool_length := by
  have hab : ∀ c ∈ a ++ b,
      c.complete = true ∧ c.body.length + 4 ≤ kPacketSize + behind.length := by
    intro c hc
    rcases List.mem_append.mp hc with h | h
    · exact ha c h
    · exact hb c h
  obtain ⟨s1, h1, o1, _⟩ := main_mem_complete behind a ha
  obtain ⟨s2, h2, o2, _⟩ := main_mem_complete behind b hb
  obtain ⟨s3, h3, o3, _⟩ := main_mem_complete behind (a ++ b) hab
  rw [file_of_append] at h3
  rw [h1, h2, h3]
  show s3.output.map blank_tool_length = (s1.output ++ s2.output).map blank_tool_length
  rw [o1, o2, o3, frames_append, List.map_append, List.map_append,
    blank_frames b (len_after 0 a) 0]

set_option maxRecDepth 100000 in
/-- C17 (the code departs from it): a byte of the array is carried over from
one packet to the next. With `a = 86 07` and `b = 88 00 00 00`, the packet
written for `b` after `a` is `D5 02 88 00 00 00 00`: its length byte `02` is
the one the CHANGE_TOOL command of `a` stored in `packet[1]`, as the
TOOL_ACTION branch stores nothing there. On its own `b` is written as
`D5 00 88 00 00 00 00`. So the output for `a` followed by `b` is not the
output for `a` followed by the output for `b`. -/
theorem C17_length_byte_carried_over :
    (main write_all ([0x86, 0x07] ++ [0x88, 0x00, 0x00, 0x00])).2.output
        = [[0xD5, 0x02, 0x86, 0x07, 0x83], [0xD5, 0x02, 0x88, 0x00, 0x00, 0x00, 0x00]]
      ∧ (main write_all [0x86, 0x07]).2.output
          ++ (main write_all [0x88, 0x00, 0x00, 0x00]).2.output
        = [[0xD5, 0x02, 0x86, 0x07, 0x83], [0xD5, 0x00, 0x88, 0x00, 0x00, 0x00, 0x00]]
      ∧ (main write_all ([0x86, 0x07] ++ [0x88, 0x00, 0x00, 0x00])).2.output
        ≠ (main write_all [0x86, 0x07]).2.output
          ++ (main write_all [0x88, 0x00, 0x00, 0x00]).2.output
      ∧ (main write_all ([0x86, 0x07] ++ [0x88, 0x00, 0x00, 0x00])).1 = .success := by
  decide

/-! ## Claim C18 -/

/-- C18: for every byte sequence `d`, `compute_crc` run over `d` followed by
the byte `compute_crc` returns for `d` gives 0. -/
theorem C18_crc_of_message_and_crc :
    ∀ d : List Byte, ∃ c, compute_crc d d.length = some c
      ∧ compute_crc (d ++ [c]) (d ++ [c]).length = some 0 := by
  intro d
  refine ⟨crc_of d, compute_crc_whole d, ?_⟩
  rw [compute_crc_whole]
  unfold crc_of
  rw [crc_fold_append]
  rw [crc_fold_cons, byte_xor_self, crc_fold_nil]
  rfl

/-! ## Claim C19 -/

/-- C19: if `d` and `e` have the same length and differ at position `i` and
nowhere else, `compute_crc` returns different values for them. -/
theorem C19_single_byte_corruption (d e : List Byte) (i : Nat)
    (hlen : d.length = e.length) (hi : i < d.length)
    (hne : d[i]? ≠ e[i]?) (hsame : ∀ j, j ≠ i → d[j]? = e[j]?) :
    compute_crc d d.length ≠ compute_crc e e.length := by
  have hie : i < e.length := by omega
  have htake : d.take i = e.take i := by
    apply List.ext_getElem?
    intro j
    by_cases hj : j < i
    · rw [List.getElem?_take_of_lt hj, List.getElem?_take_of_lt hj]
      exact hsame j (by omega)
    · rw [List.getElem?_eq_none (by rw [List.length_take]; omega),
        List.getElem?_eq_none (by rw [List.length_take]; omega)]
  have hdrop : d.drop (i + 1) = e.drop (i + 1) := by
    apply List.ext_getElem?
    intro j
    rw [List.getElem?_drop, List.getElem?_drop]
    exact hsame _ (by omega)
  rw [compute_crc_whole, compute_crc_whole]
  intro h
  have h2 : crc_of d = crc_of e := Option.some.inj h
  rw [split_at_index d i hi, split_at_index e i hie, htake, hdrop] at h2
  have h3 := crc_of_one_byte _ _ _ _ h2
  apply hne
  rw [List.getElem?_eq_getElem hi, List.getElem?_eq_getElem hie, h3]

/-- C19 at `86 00` against `86 01`, which differ at position 1. -/
theorem C19_single_byte_corruption_witness :
    compute_crc [0x86, 0x00] [(0x86 : Byte), 0x00].length
      ≠ compute_crc [0x86, 0x01] [(0x86 : Byte), 0x01].length :=
  C19_single_byte_corruption [0x86, 0x00] [0x86, 0x01] 1 rfl (by decide) (by decide)
    (fun j hj => by
      match j, hj with
      | 0, _ => rfl
      | 1, h => exact absurd rfl h
      | j + 2, _ => rfl)

end S3g
